import Mathlib

/-!
# Staking module: power-index engine, inflation controller, REST handler

A shallow embedding of the staking module of this repository, together with
proofs settling the specification claims.

The repository sources available here are the REST transaction handler
(`x/stake/client/rest/tx.go`) and the keeper test files
(`x/stake/keeper/inflation_test.go` and the validator keeper tests).  The
keeper implementation itself (`UpdateValidator`, `GetValidatorsByPower`,
`NextInflation`, `ProcessProvisions`, ...) is not among the sources, so those
operations are modelled from the specification (each such definition carries a
doc comment starting with `Modelled from the spec:`).  The REST handler is
embedded directly from the Go source.
-/

namespace Stake

/-- Validator bond status (`sdk.Bonded`, `sdk.Unbonded`, `sdk.Revoked`). -/
inductive BondStatus where
  | unbonded : BondStatus
  | bonded : BondStatus
  | revoked : BondStatus
deriving DecidableEq, Repr

/-- Modelled from the spec: the per-validator record.  `owner` and `pubKey`
stand for the address and public-key bytes (abstracted as naturals).
`tokens` is the validator's bonded-equivalent token count: the spec's
invariant V2 states the token-equivalent is `PoolShares.amount ×
Pool.<Kind>ShareExRate`, and bonding/unbonding moves shares between pools at
the current ex-rates, so the token-equivalent is the quantity preserved by
status transitions; the power order and `ABCIValidator` are defined over it. -/
structure Validator where
  owner : Nat
  pubKey : Nat
  status : BondStatus
  tokens : ℚ
  bondHeight : ℤ
  counter : Nat
deriving DecidableEq, Repr

/-- Modelled from the spec: the sort-key total order for the by-power index,
highest rank first: power descending, then `BondHeight` ascending, then
`BondIntraTxCounter` ascending, then owner ascending. -/
def valRel (a b : Validator) : Prop :=
  b.tokens < a.tokens ∨
    (a.tokens = b.tokens ∧ (a.bondHeight < b.bondHeight ∨
      (a.bondHeight = b.bondHeight ∧ (a.counter < b.counter ∨
        (a.counter = b.counter ∧ a.owner ≤ b.owner)))))

instance : DecidableRel valRel := fun a b => by
  unfold valRel; infer_instance

instance : IsTotal Validator valRel := by
  constructor
  intro a b
  unfold valRel
  rcases lt_trichotomy a.tokens b.tokens with h | h | h
  · exact Or.inr (Or.inl h)
  · rcases lt_trichotomy a.bondHeight b.bondHeight with h2 | h2 | h2
    · exact Or.inl (Or.inr ⟨h, Or.inl h2⟩)
    · rcases lt_trichotomy a.counter b.counter with h3 | h3 | h3
      · exact Or.inl (Or.inr ⟨h, Or.inr ⟨h2, Or.inl h3⟩⟩)
      · rcases le_total a.owner b.owner with h4 | h4
        · exact Or.inl (Or.inr ⟨h, Or.inr ⟨h2, Or.inr ⟨h3, h4⟩⟩⟩)
        · exact Or.inr (Or.inr ⟨h.symm, Or.inr ⟨h2.symm, Or.inr ⟨h3.symm, h4⟩⟩⟩)
      · exact Or.inr (Or.inr ⟨h.symm, Or.inr ⟨h2.symm, Or.inl h3⟩⟩)
    · exact Or.inr (Or.inr ⟨h.symm, Or.inl h2⟩)
  · exact Or.inl (Or.inl h)

instance : IsTrans Validator valRel := by
  constructor
  intro a b c hab hbc
  unfold valRel at *
  rcases hab with h1 | ⟨e1, h1⟩
  · rcases hbc with h2 | ⟨e2, _⟩
    · exact Or.inl (h2.trans h1)
    · exact Or.inl (e2 ▸ h1)
  · rcases hbc with h2 | ⟨e2, h2⟩
    · exact Or.inl (e1 ▸ h2)
    · refine Or.inr ⟨e1.trans e2, ?_⟩
      rcases h1 with h1 | ⟨f1, h1⟩
      · rcases h2 with h2 | ⟨f2, _⟩
        · exact Or.inl (h1.trans h2)
        · exact Or.inl (f2 ▸ h1)
      · rcases h2 with h2 | ⟨f2, h2⟩
        · exact Or.inl (f1 ▸ h2)
        · refine Or.inr ⟨f1.trans f2, ?_⟩
          rcases h1 with h1 | ⟨g1, h1⟩
          · rcases h2 with h2 | ⟨g2, _⟩
            · exact Or.inl (h1.trans h2)
            · exact Or.inl (g2 ▸ h1)
          · rcases h2 with h2 | ⟨g2, h2⟩
            · exact Or.inl (g1 ▸ h2)
            · exact Or.inr ⟨g1.trans g2, h1.trans h2⟩

/-- Modelled from the spec: the store state of the power-index engine.  The
by-owner index is the `validators` list (owners are unique in well-formed
states); the by-power and bonded-set indexes are derived from it, mirroring
the key layout of the ordered store.  `pendingUpdates` is the pending-update
map keyed by validator owner, holding `(owner, pubkey, power)` entries. -/
structure State where
  maxValidators : Nat
  validators : List Validator
  pendingUpdates : List (Nat × Nat × ℤ)
  intraTxCounter : Nat
  height : ℤ
deriving DecidableEq, Repr

/-- Look up a validator by owner (the `GetValidator` read path). -/
def getValidator (s : State) (o : Nat) : Option Validator :=
  s.validators.find? (fun u => u.owner == o)

/-- Whether a validator has an entry in the by-power index: per the spec,
only bonded and unbonded-with-nonzero-power validators appear. -/
def inPowerIndex (v : Validator) : Bool :=
  v.status == .bonded || (v.status == .unbonded && v.tokens != 0)

/-- The by-power index over a list of validator records, highest first. -/
def powerIndexOf (l : List Validator) : List Validator :=
  (l.filter inPowerIndex).insertionSort valRel

/-- Modelled from the spec: the by-power index of the store, highest first. -/
def powerIndex (s : State) : List Validator :=
  powerIndexOf s.validators

/-- All stored records other than the one with owner `o`. -/
def othersOf (s : State) (o : Nat) : List Validator :=
  s.validators.filter (fun u => u.owner != o)

/-- Modelled from the spec: `GetValidatorsByPower`, reading the top
`MaxValidators` entries of the by-power index, highest first. -/
def getValidatorsByPower (s : State) : List Validator :=
  (powerIndex s).take s.maxValidators

/-- The currently bonded validators of the store (bonded-set index). -/
def bondedSet (s : State) : List Validator :=
  s.validators.filter (fun u => u.status == .bonded)

/-- Number of bonded validators. -/
def bondedCount (s : State) : Nat :=
  (bondedSet s).length

/-- Modelled from the spec: the cliff validator of a list of bonded
validators — the lowest-power bonded validator, i.e. the last one in the
sort-key order. -/
def cliffOf (bonded : List Validator) : Option Validator :=
  (bonded.insertionSort valRel).getLast?

/-- Modelled from the spec: whether a validator with power `t` belongs in the
top-`m` of the by-power index `idx` (computed without the validator's own
entries): it belongs while the index has room, and otherwise iff its power
strictly exceeds the power of the entry at rank `m` of the index; a validator
with no positive power never belongs. -/
def belongsDecision (m : Nat) (idx : List Validator) (t : ℚ) : Bool :=
  decide (0 < t) && decide (0 < m) &&
    (if idx.length < m then true
     else
       match idx.get? (m - 1) with
       | some c => decide (c.tokens < t)
       | none => false)

/-- Modelled from the spec: the next-highest unbonded validator that can be
promoted into a freed bonded slot — the best-ranked unbonded validator with
positive power. -/
def promoteCandidate (l : List Validator) : Option Validator :=
  ((l.filter (fun u => u.status == .unbonded && decide (0 < u.tokens))).insertionSort valRel).head?

/-- Write a validator to the by-owner store: replace the record with the same
owner, or append a fresh record. -/
def storeSet (l : List Validator) (v : Validator) : List Validator :=
  if l.any (fun u => u.owner == v.owner) then
    l.map (fun u => if u.owner == v.owner then v else u)
  else l ++ [v]

/-- Apply `f` to the record with owner `o`, leaving all others unchanged. -/
def adjust (l : List Validator) (o : Nat) (f : Validator → Validator) : List Validator :=
  l.map (fun u => if u.owner == o then f u else u)

/-- Mark a validator unbonded (shares move bonded→unbonded at the current
ex-rates, so the token-equivalent is unchanged; `BondHeight` is kept, as
pinned by `TestGetValidatorsEdgeCases`, which requires `BondHeight = 40`
after an unbond). -/
def unbondVal (v : Validator) : Validator :=
  { v with status := .unbonded }

/-- Mark a validator bonded at height `h` (shares move unbonded→bonded at the
current ex-rates; `BondHeight` is set to the current height). -/
def bondVal (h : ℤ) (v : Validator) : Validator :=
  { v with status := .bonded, bondHeight := h }

/-- Replace the status field of a validator record. -/
def setStatus (st : BondStatus) (v : Validator) : Validator :=
  { v with status := st }

/-- `ABCIValidator`: the consensus-visible `(pubkey, power)` of a validator,
where power is the floor of the bonded-equivalent token count; only bonded
validators are visible to the consensus engine. -/
def visible (v : Validator) : Option (Nat × ℤ) :=
  if v.status = .bonded then some (v.pubKey, ⌊v.tokens⌋) else none

/-- The consensus-visible `(pubkey, power)` of owner `o` in store list `l`. -/
def visibleAt (l : List Validator) (o : Nat) : Option (Nat × ℤ) :=
  match l.find? (fun u => u.owner == o) with
  | some u => visible u
  | none => none

/-- Write a pending update for owner `o`: updates are stored under key =
validator owner, a later write overwrites the earlier entry. -/
def setPending (m : List (Nat × Nat × ℤ )) (o pk : Nat) (pow : ℤ) : List (Nat × Nat × ℤ) :=
  (o, pk, pow) :: m.filter (fun e => e.1 != o)

/-- Emit a pending update for owner `o` iff its consensus-visible
`(pubkey, power)` differs between the old store `oldL` and new store `newL`;
a validator that became invisible gets a `(pubkey, 0)` removal entry. -/
def emitFor (oldL newL : List Validator) (o : Nat) (m : List (Nat × Nat × ℤ)) :
    List (Nat × Nat × ℤ) :=
  let b := visibleAt oldL o
  let a := visibleAt newL o
  if a = b then m
  else
    match a, b with
    | some (pk, p), _ => setPending m o pk p
    | none, some (pk, _) => setPending m o pk 0
    | none, none => m

/-- The stored record with the incoming validator's owner, if any. -/
def oldOf (s : State) (vIn : Validator) : Option Validator :=
  s.validators.find? (fun u => u.owner == vIn.owner)

/-- The incoming validator after the spec's bond-increment step: a fresh
validator is assigned `BondIntraTxCounter` from the pool counter, an existing
one keeps its stored counter and `BondHeight`. -/
def normVal (s : State) (vIn : Validator) : Validator :=
  match oldOf s vIn with
  | some o => { vIn with counter := o.counter, bondHeight := o.bondHeight }
  | none => { vIn with counter := s.intraTxCounter }

/-- The pool's intra-transaction counter after the update: incremented iff
the validator was fresh. -/
def nextCtr (s : State) (vIn : Validator) : Nat :=
  match oldOf s vIn with
  | some _ => s.intraTxCounter
  | none => s.intraTxCounter + 1

/-- The status against which the transition table is keyed: the stored
status when present, the incoming one for a fresh validator. -/
def keepOf (s : State) (vIn : Validator) : BondStatus :=
  match oldOf s vIn with
  | some o => o.status
  | none => vIn.status

/-- Whether the validator was bonded before the call. -/
def priorBonded (s : State) (vIn : Validator) : Bool :=
  match oldOf s vIn with
  | some o => o.status == .bonded
  | none => false

/-- The bonded validators other than the incoming one. -/
def bondedOthersOf (s : State) (vIn : Validator) : List Validator :=
  (othersOf s vIn.owner).filter (fun u => u.status == .bonded)

/-- Whether the incoming validator belongs in the top-`MaxValidators`:
its old index entries are deleted first, so the comparison runs against the
index over the remaining validators; a revoked validator never belongs. -/
def belongs (s : State) (vIn : Validator) : Bool :=
  !(keepOf s vIn == .revoked) &&
    belongsDecision s.maxValidators (powerIndexOf (othersOf s vIn.owner)) vIn.tokens

/-- Transition: the validator keeps (or takes) its bonded slot; emit a
pending update iff its consensus-visible `(pubkey, power)` changed. -/
def stayBondedCase (s : State) (vIn : Validator) : State :=
  { s with
    validators := storeSet s.validators (setStatus .bonded (normVal s vIn)),
    pendingUpdates := emitFor s.validators
      (storeSet s.validators (setStatus .bonded (normVal s vIn))) vIn.owner
      s.pendingUpdates,
    intraTxCounter := nextCtr s vIn }

/-- The store after unbonding the incoming validator. -/
def unbondStore (s : State) (vIn : Validator) : List Validator :=
  storeSet s.validators (unbondVal (normVal s vIn))

/-- Unbond without a promotion (no in-band unbonded validator exists). -/
def unbondSolo (s : State) (vIn : Validator) : State :=
  { s with
    validators := unbondStore s vIn,
    pendingUpdates := emitFor s.validators (unbondStore s vIn) vIn.owner s.pendingUpdates,
    intraTxCounter := nextCtr s vIn }

/-- Unbond the incoming validator and promote `p` into the freed slot. -/
def unbondPromote (s : State) (vIn p : Validator) : State :=
  { s with
    validators := adjust (unbondStore s vIn) p.owner (bondVal s.height),
    pendingUpdates := emitFor s.validators
      (adjust (unbondStore s vIn) p.owner (bondVal s.height)) p.owner
      (emitFor s.validators (adjust (unbondStore s vIn) p.owner (bondVal s.height)) vIn.owner
        s.pendingUpdates),
    intraTxCounter := nextCtr s vIn }

/-- Transition: a bonded validator no longer belongs — unbond it, emit its
`(pubkey, 0)` update, and promote the next-highest unbonded validator that
is now in-band. -/
def unbondCase (s : State) (vIn : Validator) : State :=
  match (if (bondedOthersOf s vIn).length < s.maxValidators
         then promoteCandidate (othersOf s vIn.owner) else none) with
  | some p => unbondPromote s vIn p
  | none => unbondSolo s vIn

/-- The store after bonding the incoming validator at the current height. -/
def bondStore (s : State) (vIn : Validator) : List Validator :=
  storeSet s.validators (bondVal s.height (normVal s vIn))

/-- Bond without displacing anyone (the bonded set had room). -/
def bondSolo (s : State) (vIn : Validator) : State :=
  { s with
    validators := bondStore s vIn,
    pendingUpdates := emitFor s.validators (bondStore s vIn) vIn.owner s.pendingUpdates,
    intraTxCounter := nextCtr s vIn }

/-- Bond the incoming validator and unbond the displaced cliff validator `d`
in the same call. -/
def bondDisplace (s : State) (vIn d : Validator) : State :=
  { s with
    validators := adjust (bondStore s vIn) d.owner unbondVal,
    pendingUpdates := emitFor s.validators
      (adjust (bondStore s vIn) d.owner unbondVal) d.owner
      (emitFor s.validators (adjust (bondStore s vIn) d.owner unbondVal) vIn.owner
        s.pendingUpdates),
    intraTxCounter := nextCtr s vIn }

/-- Transition: a non-bonded validator belongs — bond it at the current
height; if this displaces the cliff validator, unbond the displaced one and
emit its `(pubkey, 0)` update in the same call. -/
def bondCase (s : State) (vIn : Validator) : State :=
  match (if s.maxValidators ≤ (bondedOthersOf s vIn).length
         then cliffOf (bondedOthersOf s vIn) else none) with
  | some d => bondDisplace s vIn d
  | none => bondSolo s vIn

/-- Transition: the validator does not belong and was not bonded — store the
record, leaving its status as it was (a fresh validator is left unbonded,
a revoked one stays revoked); no consensus-visible change occurs for it. -/
def keepCase (s : State) (vIn : Validator) : State :=
  { s with
    validators := storeSet s.validators
      (setStatus (if keepOf s vIn == .revoked then .revoked else .unbonded) (normVal s vIn)),
    pendingUpdates := emitFor s.validators
      (storeSet s.validators
        (setStatus (if keepOf s vIn == .revoked then .revoked else .unbonded)
          (normVal s vIn))) vIn.owner
      s.pendingUpdates,
    intraTxCounter := nextCtr s vIn }

/-- Modelled from the spec: `UpdateValidator`, the heart of the power-index
engine.  Steps, following the spec's update algorithm: load the prior record
by owner; assign `BondIntraTxCounter` from the pool counter if absent,
otherwise preserve it (likewise `BondHeight`, which the keeper tests pin as
preserved across an unbond); delete the validator's old index entries and
decide whether it belongs in the top-`MaxValidators` by comparing its power
against the rank-`MaxValidators` entry of the remaining by-power index; then
apply the transition table via the four cases above.  A pending update is
emitted, keyed by owner, for each validator whose consensus-visible
`(pubkey, power)` changed in the call. -/
def updateValidator (s : State) (vIn : Validator) : State :=
  if priorBonded s vIn then
    if belongs s vIn then stayBondedCase s vIn else unbondCase s vIn
  else
    if belongs s vIn then bondCase s vIn else keepCase s vIn

/-- Modelled from the spec: `GetTendermintUpdates` — the pending diff read at
block end, listed in owner-key order as the ordered store yields it. -/
def getTendermintUpdates (s : State) : List (Nat × Nat × ℤ) :=
  s.pendingUpdates.insertionSort (fun a b => a.1 ≤ b.1)

/-- Modelled from the spec: `ClearTendermintUpdates`. -/
def clearTendermintUpdates (s : State) : State :=
  { s with pendingUpdates := [] }

/-- A message applied to the power-index engine: the handlers
(`MsgDelegate` / `MsgBeginUnbonding`) modify the shares of the stored
validator (creating a fresh unbonded record on first delegation) and pass it
through `UpdateValidator`; to the engine, a message is an update of one
validator's token-equivalent. -/
def msgSetTokens (s : State) (o pk : Nat) (t : ℚ) : State :=
  let v : Validator := match getValidator s o with
    | some u => { u with tokens := t }
    | none => { owner := o, pubKey := pk, status := .unbonded, tokens := t,
                bondHeight := 0, counter := 0 }
  updateValidator s v

/-- The genesis store: no validators, no pending updates. -/
def initialState (maxV : Nat) : State :=
  { maxValidators := maxV, validators := [], pendingUpdates := [],
    intraTxCounter := 0, height := 0 }

/-- A message for the power-index engine, as produced by the
delegation/unbonding handlers: update validator `owner`'s token-equivalent to
`tokens` (`pubKey` is used when the message creates the validator).  A failed
message (negative resulting amount, `ErrBadAmount`/`ErrNotEnoughShares`)
mutates no state. -/
structure Msg where
  owner : Nat
  pubKey : Nat
  tokens : ℚ
deriving DecidableEq, Repr

/-- Apply one message: domain errors leave the state unchanged. -/
def applyMsg (s : State) (m : Msg) : State :=
  if 0 ≤ m.tokens then msgSetTokens s m.owner m.pubKey m.tokens else s

/-- Apply a block of messages in transaction order. -/
def applyMsgs (s : State) (ms : List Msg) : State :=
  ms.foldl applyMsg s

/- ### Inflation controller -/

/-- `InflationRateChange` parameter. -/
def inflationRateChange : ℚ := 13 / 100

/-- `InflationMax` parameter. -/
def inflationMax : ℚ := 20 / 100

/-- `InflationMin` parameter. -/
def inflationMin : ℚ := 7 / 100

/-- `GoalBonded` parameter. -/
def goalBonded : ℚ := 67 / 100

/-- `HoursPerYear`: 8766. -/
def hoursPerYear : ℚ := 8766

/-- The fixed rounding denominator `precision` (1,000,000,000). -/
def precision : ℤ := 1000000000

/-- `Rat.Round(precision)`: round to the nearest multiple of `1/precision`. -/
def roundPrec (x : ℚ) : ℚ :=
  ((round (x * (precision : ℚ)) : ℤ) : ℚ) / (precision : ℚ)

/-- Modelled from the spec: the pool singleton.  `DateLastCommissionReset`
is out of scope and omitted. -/
structure Pool where
  bondedTokens : ℤ
  looseUnbondedTokens : ℤ
  bondedShares : ℚ
  unbondedShares : ℚ
  inflation : ℚ
deriving DecidableEq, Repr

/-- `TokenSupply = BondedTokens + LooseUnbondedTokens`. -/
def Pool.tokenSupply (p : Pool) : ℤ :=
  p.bondedTokens + p.looseUnbondedTokens

/-- `BondedRatio = BondedTokens / TokenSupply` (0 if the supply is 0). -/
def Pool.bondedRatio (p : Pool) : ℚ :=
  if p.tokenSupply = 0 then 0 else (p.bondedTokens : ℚ) / (p.tokenSupply : ℚ)

/-- The hourly inflation-rate change before clamping:
`(1 − BondedRatio / GoalBonded) × InflationRateChange / HoursPerYear`,
rounded to `precision`. -/
def inflationChange (p : Pool) : ℚ :=
  roundPrec ((1 - p.bondedRatio / goalBonded) * inflationRateChange / hoursPerYear)

/-- Modelled from the spec: `NextInflation` — add the feedback change to the
current inflation and clamp the result to `[InflationMin, InflationMax]`. -/
def nextInflation (p : Pool) : ℚ :=
  let i := p.inflation + inflationChange p
  if inflationMax < i then inflationMax
  else if i < inflationMin then inflationMin
  else i

/-- The provisions minted by one hourly invocation:
`floor(NextInflation × TokenSupply / HoursPerYear)`. -/
def provisionsOf (p : Pool) : ℤ :=
  ⌊nextInflation p * (p.tokenSupply : ℚ) / hoursPerYear⌋

/-- Modelled from the spec: `ProcessProvisions` — update `Pool.Inflation` to
`NextInflation` and add the provisions to `BondedTokens` (not to
`BondedShares`). -/
def processProvisions (p : Pool) : Pool :=
  { p with inflation := nextInflation p,
           bondedTokens := p.bondedTokens + provisionsOf p }

/-- `N` hourly invocations of `ProcessProvisions`. -/
def processN : Nat → Pool → Pool
  | 0, p => p
  | n + 1, p => processN n (processProvisions p)

/-- The sum of the provisions emitted over `N` hourly invocations. -/
def provisionsSum : Nat → Pool → ℤ
  | 0, _ => 0
  | n + 1, p => provisionsOf p + provisionsSum n (processProvisions p)

/-- The balanced test pool of `TestGetInflation` test 8: 67 bonded tokens,
33 loose tokens, 15% inflation. -/
def balancedPool : Pool :=
  { bondedTokens := 67, looseUnbondedTokens := 33, bondedShares := 0,
    unbondedShares := 0, inflation := 15 / 100 }

/- ### REST edit-delegations handler (embedded from x/stake/client/rest/tx.go) -/

/-- `stake.MsgDelegate` as far as the handler inspects it (addresses are
abstracted byte strings). -/
structure MsgDelegate where
  delegatorAddr : Nat
  validatorAddr : Nat
  amount : ℤ
deriving DecidableEq, Repr

/-- `stake.MsgBeginUnbonding` as far as the handler inspects it. -/
structure MsgBeginUnbonding where
  delegatorAddr : Nat
  validatorAddr : Nat
  shares : ℚ
deriving DecidableEq, Repr

/-- A message to sign and broadcast (`sdk.Msg`). -/
inductive SdkMsg where
  | delegate : MsgDelegate → SdkMsg
  | beginUnbonding : MsgBeginUnbonding → SdkMsg
deriving DecidableEq, Repr

/-- The delegator address carried by a message. -/
def SdkMsg.delegatorAddr : SdkMsg → Nat
  | .delegate m => m.delegatorAddr
  | .beginUnbonding m => m.delegatorAddr

/-- `EditDelegationsBody`: the request body for POST `/stake/delegations`. -/
structure EditDelegationsBody where
  localAccountName : String
  password : String
  chainID : String
  sequence : ℤ
  delegations : List MsgDelegate
  beginUnbondings : List MsgBeginUnbonding

/-- The handler's collaborators: the keybase (`kb.Get`, yielding the account
address), the signing context (`ctx.SignAndBuild`, taking the sequence number
set via `ctx.WithSequence`), and the broadcast layer (`ctx.BroadcastTx`,
yielding a `ResultBroadcastTxCommit` abstracted as a number). -/
structure RestEnv where
  kbGet : String → Except String Nat
  signAndBuild : String → String → ℤ → SdkMsg → Except String (List Nat)
  broadcastTx : List Nat → Except String Nat

/-- The observable outcome of one handler invocation: the HTTP status code
written, the response body, and the transactions that were successfully
broadcast, in order.  A broadcast that happened before a failure is an
external effect that is not rolled back, so it stays in `broadcasts`. -/
structure RestResponse where
  status : Nat
  body : String
  broadcasts : List (List Nat)
deriving DecidableEq, Repr

/-- The message list assembled from a request: delegations first, then
begin-unbondings, in body order. -/
def requestMsgs (req : EditDelegationsBody) : List SdkMsg :=
  req.delegations.map SdkMsg.delegate ++ req.beginUnbondings.map SdkMsg.beginUnbonding

/-- The message-building loop of the handler: delegations first, then
begin-unbondings, each checked to carry the authenticated account's own
delegator address; the first mismatch aborts the request. -/
def buildMessages (addr : Nat) (req : EditDelegationsBody) : Option (List SdkMsg) :=
  if (requestMsgs req).all (fun m => m.delegatorAddr == addr)
  then some (requestMsgs req) else none

/-- The signing loop: sign each message as its own transaction, incrementing
the sequence for each message; the first failure aborts the request. -/
def signAll (env : RestEnv) (name pw : String) : ℤ → List SdkMsg → Except String (List (List Nat))
  | _, [] => .ok []
  | seq, m :: ms =>
    match env.signAndBuild name pw seq m with
    | .error e => .error e
    | .ok tx =>
      match signAll env name pw (seq + 1) ms with
      | .error e => .error e
      | .ok txs => .ok (tx :: txs)

/-- The broadcast loop: submit the signed transactions one by one, stopping
at the first failure; returns the successfully broadcast transactions and
the error that stopped the loop, if any. -/
def broadcastAll (env : RestEnv) : List (List Nat) → List (List Nat) × Option String
  | [] => ([], none)
  | tx :: txs =>
    match env.broadcastTx tx with
    | .error e => ([], some e)
    | .ok _ =>
      let r := broadcastAll env txs
      (tx :: r.1, r.2)

/-- Number of stored validators with positive power. -/
def posCount (s : State) : Nat :=
  s.validators.countP (fun u => decide (0 < u.tokens))

/-- Distinctness of owner keys in the by-owner store. -/
def distinctOwners (l : List Validator) : Prop :=
  l.Pairwise (fun a b => a.owner ≠ b.owner)

/-- The well-formedness invariant of the engine state: owner keys are
unique, no stored validator is revoked, all powers are nonnegative, bonded
validators have positive power, the bonded count is
`min(MaxValidators, count of validators with power > 0)` (spec invariant 5),
and the pending-update map holds at most one entry per owner. -/
def StoreInv (s : State) : Prop :=
  distinctOwners s.validators ∧
  (∀ v ∈ s.validators, v.status ≠ .revoked) ∧
  (∀ v ∈ s.validators, 0 ≤ v.tokens) ∧
  (∀ v ∈ s.validators, v.status = .bonded → 0 < v.tokens) ∧
  bondedCount s = min s.maxValidators (posCount s) ∧
  s.pendingUpdates.Pairwise (fun a b => a.1 ≠ b.1)

instance (l : List Validator) : Decidable (distinctOwners l) :=
  decidable_of_iff (l.Pairwise (fun a b => a.owner ≠ b.owner)) (by rw [distinctOwners])

instance (s : State) : Decidable (StoreInv s) :=
  decidable_of_iff
    (distinctOwners s.validators ∧
      (∀ v ∈ s.validators, v.status ≠ .revoked) ∧
      (∀ v ∈ s.validators, 0 ≤ v.tokens) ∧
      (∀ v ∈ s.validators, v.status = .bonded → 0 < v.tokens) ∧
      bondedCount s = min s.maxValidators (posCount s) ∧
      s.pendingUpdates.Pairwise (fun a b => a.1 ≠ b.1))
    (by rw [StoreInv])

/-- Number of pending-update entries keyed by owner `o`. -/
def countKey (m : List (Nat × Nat × ℤ)) (o : Nat) : Nat :=
  m.countP (fun e => e.1 == o)

/-- `editDelegationsRequestHandlerFn` from `x/stake/client/rest/tx.go`,
after a successfully parsed request body: look up the account in the
keybase (401 on failure), build the message list (401 `"Must use own
delegator address"` if any message carries a foreign delegator address),
sign every message as a separate transaction (401 on failure, nothing
broadcast), then broadcast the transactions in order, returning 500 on the
first failure — the transactions already sent stay sent. -/
def editDelegationsHandler (env : RestEnv) (req : EditDelegationsBody) : RestResponse :=
  match env.kbGet req.localAccountName with
  | .error e => { status := 401, body := e, broadcasts := [] }
  | .ok addr =>
    match buildMessages addr req with
    | none => { status := 401, body := "Must use own delegator address", broadcasts := [] }
    | some msgs =>
      match signAll env req.localAccountName req.password req.sequence msgs with
      | .error e => { status := 401, body := e, broadcasts := [] }
      | .ok txs =>
        match broadcastAll env txs with
        | (done, some e) => { status := 500, body := e, broadcasts := done }
        | (done, none) => { status := 200, body := "", broadcasts := done }

/-- A concrete handler environment whose broadcast layer rejects the
transaction signed with sequence 1: the keybase resolves every account to
address 1, signing emits the sequence number as the transaction bytes, and
broadcasting fails exactly on `[1]`. -/
def envMidFail : RestEnv :=
  { kbGet := fun _ => .ok 1,
    signAndBuild := fun _ _ seq _ => .ok [seq.toNat],
    broadcastTx := fun tx => if tx = [1] then .error "broadcast failed" else .ok 0 }

/-- A concrete request carrying two delegations from the authenticated
delegator address 1. -/
def reqTwoDelegations : EditDelegationsBody :=
  { localAccountName := "alice", password := "pw", chainID := "test",
    sequence := 0,
    delegations := [⟨1, 2, 5⟩, ⟨1, 3, 7⟩],
    beginUnbondings := [] }

/-- A concrete handler environment that accepts everything: the keybase
resolves every account to address 1, signing and broadcasting always
succeed. -/
def envAccept : RestEnv :=
  { kbGet := fun _ => .ok 1,
    signAndBuild := fun _ _ seq _ => .ok [seq.toNat],
    broadcastTx := fun _ => .ok 0 }

/-- A concrete request whose single delegation carries delegator address 2,
foreign to the authenticated account's address 1. -/
def reqForeignAddr : EditDelegationsBody :=
  { localAccountName := "alice", password := "pw", chainID := "test",
    sequence := 0,
    delegations := [⟨2, 3, 5⟩],
    beginUnbondings := [] }

/-- A fresh bonded-kind validator record as the sorting test creates them:
owner `o`, pubkey `pk`, `tokens` `t`, zero bond height and counter. -/
def freshVal (o pk : Nat) (t : ℚ) : Validator :=
  { owner := o, pubKey := pk, status := .bonded, tokens := t, bondHeight := 0, counter := 0 }

/-- The sorting scenario: `MaxValidators = 5`, validators with powers
`[0, 100, 1, 400, 200]` inserted in that order via `updateValidator`. -/
def sortScenario : State :=
  updateValidator
    (updateValidator
      (updateValidator
        (updateValidator
          (updateValidator (initialState 5) (freshVal 0 100 0))
          (freshVal 1 101 100))
        (freshVal 2 102 1))
      (freshVal 3 103 400))
    (freshVal 4 104 200)

/-- The cliff scenario: `MaxValidators = 2`, validators with powers 10 and
20 bond and fill the set, then a third with power 5 arrives below the cliff
and is stored unbonded. -/
def cliffScenario : State :=
  updateValidator
    (updateValidator
      (updateValidator (initialState 2) (freshVal 0 100 10))
      (freshVal 1 101 20))
    (freshVal 2 102 5)

/-- The tie scenario: `MaxValidators = 2`, validators with powers
`[200, 100, 100]` inserted in order — the first two bond, the third ties
with the cliff and is stored unbonded. -/
def tieScenario : State :=
  updateValidator
    (updateValidator
      (updateValidator (initialState 2) (freshVal 0 100 200))
      (freshVal 1 101 100))
    (freshVal 2 102 100)

/-- The tie scenario after the third validator rises to 150 and displaces
the cliff validator. -/
def tieScenario2 : State := msgSetTokens tieScenario 2 102 150

/-! ### Basic lemmas about the by-owner store -/

/-- Unfolding `adjust` over a cons cell. -/
theorem adjust_cons (a : Validator) (l : List Validator) (o : Nat) (f : Validator → Validator) :
    adjust (a :: l) o f = (if a.owner == o then f a else a) :: adjust l o f := rfl

/-- `find?` over a cons cell whose head matches, with the predicate explicit. -/
theorem find?_cons_pos {α : Type} (p : α → Bool) (a : α) (l : List α) (h : p a = true) :
    List.find? p (a :: l) = some a :=
  List.find?_cons_of_pos l h

/-- `find?` over a cons cell whose head does not match, predicate explicit. -/
theorem find?_cons_neg {α : Type} (p : α → Bool) (a : α) (l : List α) (h : ¬ p a = true) :
    List.find? p (a :: l) = List.find? p l :=
  List.find?_cons_of_neg l h

/-- Finding an owner `o2` in an adjusted list, when the adjustment targets
owner `o` and preserves the owner of what it rewrites. -/
theorem find?_adjust_other (l : List Validator) (o o2 : Nat) (f : Validator → Validator)
    (hf : ∀ u : Validator, u.owner = o → (f u).owner = o) (hne : o2 ≠ o) :
    (adjust l o f).find? (fun u => u.owner == o2) = l.find? (fun u => u.owner == o2) := by
  induction l with
  | nil => rfl
  | cons a l ih =>
    rw [adjust_cons]
    by_cases ha : a.owner = o
    · have hfa : (f a).owner = o := hf a ha
      have h1 : ¬ ((fun u : Validator => u.owner == o2) (f a)) = true := by
        simp [hfa, Ne.symm hne]
      have h2 : ¬ ((fun u : Validator => u.owner == o2) a) = true := by
        simp [ha, Ne.symm hne]
      rw [if_pos (by simp [ha]),
        find?_cons_neg (fun u : Validator => u.owner == o2) (f a) _ h1,
        find?_cons_neg (fun u : Validator => u.owner == o2) a _ h2]
      exact ih
    · rw [if_neg (by simp [ha])]
      by_cases h2 : a.owner = o2
      · rw [find?_cons_pos (fun u : Validator => u.owner == o2) a _ (by simp [h2]),
          find?_cons_pos (fun u : Validator => u.owner == o2) a _ (by simp [h2])]
      · rw [find?_cons_neg (fun u : Validator => u.owner == o2) a _ (by simp [h2]),
          find?_cons_neg (fun u : Validator => u.owner == o2) a _ (by simp [h2])]
        exact ih

/-- Finding the adjusted owner itself: the first hit is rewritten by `f`. -/
theorem find?_adjust_self (l : List Validator) (o : Nat) (f : Validator → Validator) (u : Validator)
    (hf : ∀ w : Validator, w.owner = o → (f w).owner = o)
    (hfind : l.find? (fun w => w.owner == o) = some u) :
    (adjust l o f).find? (fun w => w.owner == o) = some (f u) := by
  induction l with
  | nil => simp at hfind
  | cons a l ih =>
    rw [adjust_cons]
    by_cases ha : a.owner = o
    · have hau : a = u := by
        rw [find?_cons_pos (fun w : Validator => w.owner == o) a _ (by simp [ha])] at hfind
        exact Option.some.inj hfind
      subst hau
      have hfa : (f a).owner = o := hf a ha
      rw [if_pos (by simp [ha]), find?_cons_pos (fun w : Validator => w.owner == o) _ _ (by simp [hfa])]
    · rw [find?_cons_neg (fun w : Validator => w.owner == o) a _ (by simp [ha])] at hfind
      rw [if_neg (by simp [ha]), find?_cons_neg (fun w : Validator => w.owner == o) a _ (by simp [ha])]
      exact ih hfind

/-- Adjusting an owner that is not stored is a no-op. -/
theorem adjust_absent (l : List Validator) (o : Nat) (f : Validator → Validator)
    (h : l.find? (fun w => w.owner == o) = none) :
    adjust l o f = l := by
  induction l with
  | nil => rfl
  | cons a l ih =>
    rw [List.find?_eq_none] at h
    have ha : ¬ (a.owner == o) = true := h a (by simp)
    rw [adjust_cons, if_neg ha]
    have : adjust l o f = l := by
      apply ih
      rw [List.find?_eq_none]
      intro x hx
      exact h x (List.mem_cons_of_mem a hx)
    rw [this]

/-- A successful lookup makes `any` true. -/
theorem any_of_find? {α : Type} (p : α → Bool) (l : List α) (u : α)
    (h : l.find? p = some u) : l.any p = true := by
  rw [List.any_eq_true]
  exact ⟨u, List.mem_of_find?_eq_some h, List.find?_some h⟩

/-- `storeSet` over a present owner is an owner-targeted adjustment. -/
theorem storeSet_eq_adjust (l : List Validator) (v : Validator)
    (h : l.any (fun u => u.owner == v.owner) = true) :
    storeSet l v = adjust l v.owner (fun _ => v) := by
  rw [storeSet, if_pos h]; rfl

/-- `storeSet` over an absent owner appends the record. -/
theorem storeSet_eq_append (l : List Validator) (v : Validator)
    (h : l.find? (fun u => u.owner == v.owner) = none) :
    storeSet l v = l ++ [v] := by
  rw [storeSet, if_neg]
  intro hany
  rw [List.any_eq_true] at hany
  obtain ⟨x, hx, hpx⟩ := hany
  rw [List.find?_eq_none] at h
  exact absurd hpx (h x hx)

/-- Looking up the written owner after a replacing `storeSet`. -/
theorem find?_storeSet_self (l : List Validator) (v u : Validator)
    (h : l.find? (fun w => w.owner == v.owner) = some u) :
    (storeSet l v).find? (fun w => w.owner == v.owner) = some v := by
  rw [storeSet_eq_adjust l v (any_of_find? _ l u h)]
  exact find?_adjust_self l v.owner (fun _ => v) u (fun _ _ => rfl) h

/-- Looking up the written owner after an appending `storeSet`. -/
theorem find?_storeSet_absent (l : List Validator) (v : Validator)
    (h : l.find? (fun w => w.owner == v.owner) = none) :
    (storeSet l v).find? (fun w => w.owner == v.owner) = some v := by
  rw [storeSet_eq_append l v h, List.find?_append, h]
  simp

/-- Looking up a different owner is unaffected by `storeSet`. -/
theorem find?_storeSet_other (l : List Validator) (v : Validator) (o2 : Nat)
    (hne : o2 ≠ v.owner) :
    (storeSet l v).find? (fun w => w.owner == o2) = l.find? (fun w => w.owner == o2) := by
  by_cases h : l.any (fun u => u.owner == v.owner) = true
  · rw [storeSet_eq_adjust l v h]
    exact find?_adjust_other l v.owner o2 (fun _ => v) (fun _ _ => rfl) hne
  · rw [storeSet, if_neg h, List.find?_append]
    have hvo : (v.owner == o2) = false := by simp [Ne.symm hne]
    have : ([v].find? (fun w => w.owner == o2)) = none := by
      simp [List.find?, hvo]
    rw [this]
    cases l.find? (fun w => w.owner == o2) <;> rfl

/-- Counting after an owner-targeted adjustment, in additive form. -/
theorem countP_adjust (l : List Validator) (o : Nat) (f : Validator → Validator)
    (u : Validator) (p : Validator → Bool)
    (hd : distinctOwners l) (hfind : l.find? (fun w => w.owner == o) = some u) :
    (adjust l o f).countP p + (if p u then 1 else 0)
      = l.countP p + (if p (f u) then 1 else 0) := by
  induction l with
  | nil => simp at hfind
  | cons a l ih =>
    rw [distinctOwners, List.pairwise_cons] at hd
    by_cases ha : a.owner = o
    · have hau : a = u := by
        rw [find?_cons_pos (fun w : Validator => w.owner == o) a _ (by simp [ha])] at hfind
        exact Option.some.inj hfind
      subst hau
      have htail : adjust l o f = l := by
        apply adjust_absent
        rw [List.find?_eq_none]
        intro x hx
        have hax := hd.1 x hx
        intro hxo
        rw [beq_iff_eq] at hxo
        exact hax (ha.trans hxo.symm)
      rw [adjust_cons, if_pos (by simp [ha]), htail]
      rw [List.countP_cons, List.countP_cons]
      omega
    · rw [find?_cons_neg (fun w : Validator => w.owner == o) a _ (by simp [ha])] at hfind
      rw [adjust_cons, if_neg (by simp [ha]), List.countP_cons, List.countP_cons]
      have := ih hd.2 hfind
      omega

/-- Counting after a replacing `storeSet`, in additive form. -/
theorem countP_storeSet_present (l : List Validator) (v u : Validator) (p : Validator → Bool)
    (hd : distinctOwners l) (hfind : l.find? (fun w => w.owner == v.owner) = some u) :
    (storeSet l v).countP p + (if p u then 1 else 0)
      = l.countP p + (if p v then 1 else 0) := by
  rw [storeSet_eq_adjust l v (any_of_find? _ l u hfind)]
  exact countP_adjust l v.owner (fun _ => v) u p hd hfind

/-- Counting after an appending `storeSet`. -/
theorem countP_storeSet_absent (l : List Validator) (v : Validator) (p : Validator → Bool)
    (hfind : l.find? (fun w => w.owner == v.owner) = none) :
    (storeSet l v).countP p = l.countP p + (if p v then 1 else 0) := by
  rw [storeSet_eq_append l v hfind, List.countP_append]
  simp [List.countP_cons]

/-- The owner column is unchanged by an owner-preserving adjustment. -/
theorem owners_adjust (l : List Validator) (o : Nat) (f : Validator → Validator)
    (hf : ∀ u : Validator, u.owner = o → (f u).owner = o) :
    (adjust l o f).map (fun u => u.owner) = l.map (fun u => u.owner) := by
  induction l with
  | nil => rfl
  | cons a l ih =>
    rw [adjust_cons]
    by_cases ha : a.owner = o
    · rw [if_pos (by simp [ha]), List.map_cons, List.map_cons, ih, hf a ha, ha]
    · rw [if_neg (by simp [ha]), List.map_cons, List.map_cons, ih]

/-- Distinct owners is a property of the owner column. -/
theorem distinctOwners_iff (l : List Validator) :
    distinctOwners l ↔ (l.map (fun u => u.owner)).Pairwise (fun a b => a ≠ b) := by
  rw [distinctOwners, List.pairwise_map]

/-- Owner-preserving adjustments preserve owner distinctness. -/
theorem distinctOwners_adjust (l : List Validator) (o : Nat) (f : Validator → Validator)
    (hf : ∀ u : Validator, u.owner = o → (f u).owner = o)
    (hd : distinctOwners l) : distinctOwners (adjust l o f) := by
  rw [distinctOwners_iff, owners_adjust l o f hf]
  rw [distinctOwners_iff] at hd
  exact hd

/-- `storeSet` preserves owner distinctness. -/
theorem distinctOwners_storeSet (l : List Validator) (v : Validator)
    (hd : distinctOwners l) : distinctOwners (storeSet l v) := by
  by_cases h : l.any (fun u => u.owner == v.owner) = true
  · rw [storeSet_eq_adjust l v h]
    exact distinctOwners_adjust l v.owner (fun _ => v) (fun _ _ => rfl) hd
  · rw [storeSet, if_neg h]
    rw [distinctOwners, List.pairwise_append]
    refine ⟨hd, List.pairwise_singleton _ _, ?_⟩
    intro x hx y hy
    rw [List.mem_singleton] at hy
    subst hy
    intro hxy
    apply h
    rw [List.any_eq_true]
    exact ⟨x, hx, by simp [hxy]⟩

/-- Filtering out the adjusted owner hides the adjustment. -/
theorem filter_ne_adjust (l : List Validator) (o : Nat) (f : Validator → Validator)
    (hf : ∀ u : Validator, u.owner = o → (f u).owner = o) :
    (adjust l o f).filter (fun u => u.owner != o)
      = l.filter (fun u => u.owner != o) := by
  induction l with
  | nil => rfl
  | cons a l ih =>
    rw [adjust_cons]
    by_cases ha : a.owner = o
    · rw [if_pos (by simp [ha]), List.filter_cons, List.filter_cons]
      have h1 : ((f a).owner != o) = false := by simp [hf a ha]
      have h2 : (a.owner != o) = false := by simp [ha]
      simp only [h1, h2, Bool.false_eq_true, if_false]
      exact ih
    · rw [if_neg (by simp [ha]), List.filter_cons, List.filter_cons]
      have h2 : (a.owner != o) = true := by simp [ha]
      simp only [h2, if_true]
      rw [ih]

/-- Filtering out the written owner hides any `storeSet`. -/
theorem filter_ne_storeSet (l : List Validator) (v : Validator) :
    (storeSet l v).filter (fun u => u.owner != v.owner)
      = l.filter (fun u => u.owner != v.owner) := by
  by_cases h : l.any (fun u => u.owner == v.owner) = true
  · rw [storeSet_eq_adjust l v h]
    exact filter_ne_adjust l v.owner (fun _ => v) (fun _ _ => rfl)
  · rw [storeSet, if_neg h, List.filter_append]
    simp

/-! ### Lemmas about the by-power index -/

/-- The by-power index is sorted by the sort-key order. -/
theorem sorted_powerIndexOf (l : List Validator) : (powerIndexOf l).Sorted valRel :=
  List.sorted_insertionSort valRel _

/-- The by-power index is a permutation of the indexable records. -/
theorem perm_powerIndexOf (l : List Validator) :
    List.Perm (powerIndexOf l) (l.filter inPowerIndex) :=
  List.perm_insertionSort valRel _

/-- Higher rank means at least as much power. -/
theorem valRel_tokens {a b : Validator} (h : valRel a b) : b.tokens ≤ a.tokens := by
  rcases h with h | ⟨h, _⟩
  · exact le_of_lt h
  · exact le_of_eq h.symm

/-- The token column of the by-power index is sorted descending. -/
theorem sorted_tokens_powerIndexOf (l : List Validator) :
    ((powerIndexOf l).map (fun u => u.tokens)).Sorted (fun x y : ℚ => y ≤ x) := by
  have h := sorted_powerIndexOf l
  rw [List.Sorted, List.pairwise_map]
  exact h.imp valRel_tokens

/-- Antisymmetry instance for the descending token order. -/
instance : IsAntisymm ℚ (fun x y : ℚ => y ≤ x) := by
  constructor
  intro a b h1 h2
  exact le_antisymm h2 h1

/-- Adjustments that preserve power and index-membership preserve the token
column of the by-power index. -/
theorem tokens_filter_adjust (l : List Validator) (o : Nat) (f : Validator → Validator)
    (hf : ∀ u : Validator, u.owner = o →
      (f u).tokens = u.tokens ∧ inPowerIndex (f u) = inPowerIndex u) :
    ((adjust l o f).filter inPowerIndex).map (fun u => u.tokens)
      = (l.filter inPowerIndex).map (fun u => u.tokens) := by
  induction l with
  | nil => rfl
  | cons a l ih =>
    rw [adjust_cons]
    by_cases ha : a.owner = o
    · rw [if_pos (by simp [ha]), List.filter_cons, List.filter_cons]
      rcases hf a ha with ⟨ht, hidx⟩
      by_cases hL : inPowerIndex a = true
      · rw [if_pos (by rw [hidx]; exact hL), if_pos hL, List.map_cons, List.map_cons, ih, ht]
      · have hL2 : inPowerIndex a = false := by simpa using hL
        rw [if_neg (by simp [hidx, hL2]), if_neg (by simp [hL2]), ih]
    · rw [if_neg (by simp [ha]), List.filter_cons, List.filter_cons]
      by_cases hL : inPowerIndex a = true
      · rw [if_pos hL, if_pos hL, List.map_cons, List.map_cons, ih]
      · have hL2 : inPowerIndex a = false := by simpa using hL
        rw [if_neg (by simp [hL2]), if_neg (by simp [hL2]), ih]

/-- The token column of the sorted by-power index after such an adjustment. -/
theorem tokens_powerIndexOf_adjust (l : List Validator) (o : Nat) (f : Validator → Validator)
    (hf : ∀ u : Validator, u.owner = o →
      (f u).tokens = u.tokens ∧ inPowerIndex (f u) = inPowerIndex u) :
    (powerIndexOf (adjust l o f)).map (fun u => u.tokens)
      = (powerIndexOf l).map (fun u => u.tokens) := by
  apply List.eq_of_perm_of_sorted _ (sorted_tokens_powerIndexOf _) (sorted_tokens_powerIndexOf _)
  have p1 := (perm_powerIndexOf (adjust l o f)).map (fun u => u.tokens)
  have p2 := (perm_powerIndexOf l).map (fun u => u.tokens)
  rw [tokens_filter_adjust l o f hf] at p1
  exact p1.trans p2.symm

/-- The belongs decision only inspects the token column of the index. -/
theorem belongsDecision_congr (m : Nat) (idx1 idx2 : List Validator) (t : ℚ)
    (h : idx1.map (fun u => u.tokens) = idx2.map (fun u => u.tokens)) :
    belongsDecision m idx1 t = belongsDecision m idx2 t := by
  have hlen : idx1.length = idx2.length := by
    have := congrArg List.length h
    simpa using this
  have hget : (idx1.get? (m - 1)).map (fun u => u.tokens)
      = (idx2.get? (m - 1)).map (fun u => u.tokens) := by
    rw [← List.get?_map, ← List.get?_map, h]
  rw [belongsDecision, belongsDecision, hlen]
  by_cases hroom : idx2.length < m
  · rw [if_pos hroom, if_pos hroom]
  · rw [if_neg hroom, if_neg hroom]
    cases h1 : idx1.get? (m - 1) with
    | none =>
      rw [h1] at hget
      cases h2 : idx2.get? (m - 1) with
      | none => rfl
      | some c2 => rw [h2] at hget; simp at hget
    | some c1 =>
      rw [h1] at hget
      cases h2 : idx2.get? (m - 1) with
      | none => rw [h2] at hget; simp at hget
      | some c2 =>
        rw [h2] at hget
        have hct : c1.tokens = c2.tokens := by simpa using hget
        simp [hct]

/-- The cliff validator is one of the bonded records. -/
theorem cliffOf_mem (l : List Validator) (c : Validator) (h : cliffOf l = some c) :
    c ∈ l := by
  rw [cliffOf] at h
  have hmem : c ∈ (l.insertionSort valRel).getLast? := by rw [h]; rfl
  obtain ⟨hne, heq⟩ := List.mem_getLast?_eq_getLast hmem
  have : c ∈ l.insertionSort valRel := heq ▸ List.getLast_mem hne
  exact (List.perm_insertionSort valRel l).mem_iff.mp this

/-- There is no cliff validator only over an empty list. -/
theorem cliffOf_none_iff (l : List Validator) : cliffOf l = none ↔ l = [] := by
  rw [cliffOf, List.getLast?_eq_none_iff]
  constructor
  · intro h
    have := (List.perm_insertionSort valRel l).symm
    rw [h] at this
    exact this.eq_nil
  · intro h
    subst h
    rfl

/-- What a successful promotion candidate satisfies. -/
theorem promoteCandidate_some (l : List Validator) (p : Validator)
    (h : promoteCandidate l = some p) :
    p ∈ l ∧ p.status = .unbonded ∧ 0 < p.tokens := by
  rw [promoteCandidate] at h
  have hmem : p ∈ ((l.filter
      (fun u => u.status == .unbonded && decide (0 < u.tokens))).insertionSort valRel).head? := by
    rw [h]; rfl
  have h2 := List.mem_of_mem_head? hmem
  have h3 := (List.perm_insertionSort valRel _).mem_iff.mp h2
  rw [List.mem_filter] at h3
  refine ⟨h3.1, ?_, ?_⟩
  · have := h3.2
    simp only [Bool.and_eq_true, beq_iff_eq, decide_eq_true_eq] at this
    exact this.1
  · have := h3.2
    simp only [Bool.and_eq_true, beq_iff_eq, decide_eq_true_eq] at this
    exact this.2

/-- When there is no promotion candidate. -/
theorem promoteCandidate_none (l : List Validator)
    (h : promoteCandidate l = none) :
    ∀ u ∈ l, ¬(u.status = .unbonded ∧ 0 < u.tokens) := by
  rw [promoteCandidate, List.head?_eq_none_iff] at h
  intro u hu hcon
  have : u ∈ l.filter (fun u => u.status == .unbonded && decide (0 < u.tokens)) := by
    rw [List.mem_filter]
    exact ⟨hu, by simp [hcon.1, hcon.2]⟩
  have := (List.perm_insertionSort valRel _).symm.mem_iff.mp this
  rw [h] at this
  simp at this

/-- Membership in an adjusted list. -/
theorem mem_adjust (l : List Validator) (o : Nat) (f : Validator → Validator) (x : Validator)
    (h : x ∈ adjust l o f) :
    x ∈ l ∨ ∃ u, u ∈ l ∧ u.owner = o ∧ x = f u := by
  rw [adjust, List.mem_map] at h
  obtain ⟨u, hu, heq⟩ := h
  by_cases ha : u.owner = o
  · right
    exact ⟨u, hu, ha, by rw [← heq, if_pos (by simp [ha])]⟩
  · left
    rw [← heq, if_neg (by simp [ha])]
    exact hu

/-- Membership in a written store. -/
theorem mem_storeSet (l : List Validator) (v : Validator) (x : Validator)
    (h : x ∈ storeSet l v) : x ∈ l ∨ x = v := by
  rw [storeSet] at h
  by_cases hc : l.any (fun u => u.owner == v.owner) = true
  · rw [if_pos hc] at h
    rw [List.mem_map] at h
    obtain ⟨u, hu, heq⟩ := h
    by_cases ha : u.owner = v.owner
    · right; rw [← heq, if_pos (by simp [ha])]
    · left; rw [← heq, if_neg (by simp [ha])]; exact hu
  · rw [if_neg hc, List.mem_append] at h
    rcases h with h | h
    · exact Or.inl h
    · right
      rw [List.mem_singleton] at h
      exact h

/-- Splitting a count at a present owner key. -/
theorem countP_split_at_owner (l : List Validator) (o : Nat) (u : Validator)
    (p : Validator → Bool) (hd : distinctOwners l)
    (hfind : l.find? (fun w => w.owner == o) = some u) :
    l.countP p = (l.filter (fun w => w.owner != o)).countP p + (if p u then 1 else 0) := by
  induction l with
  | nil => simp at hfind
  | cons a l ih =>
    rw [distinctOwners, List.pairwise_cons] at hd
    by_cases ha : a.owner = o
    · have hau : a = u := by
        rw [find?_cons_pos (fun w : Validator => w.owner == o) a _ (by simp [ha])] at hfind
        exact Option.some.inj hfind
      subst hau
      have htail : l.filter (fun w => w.owner != o) = l := by
        apply List.filter_eq_self.mpr
        intro x hx
        have := hd.1 x hx
        simp
        intro hxo
        exact this (ha.trans hxo.symm)
      rw [List.countP_cons, List.filter_cons]
      have hao : (a.owner != o) = false := by simp [ha]
      simp only [hao, Bool.false_eq_true, if_false, htail]
    · rw [find?_cons_neg (fun w : Validator => w.owner == o) a _ (by simp [ha])] at hfind
      rw [List.countP_cons, List.filter_cons]
      have hao : (a.owner != o) = true := by simp [ha]
      simp only [hao, if_true, List.countP_cons]
      rw [ih hd.2 hfind]
      omega

/-- An absent owner filters to the identity. -/
theorem filter_ne_of_absent (l : List Validator) (o : Nat)
    (hfind : l.find? (fun w => w.owner == o) = none) :
    l.filter (fun w => w.owner != o) = l := by
  apply List.filter_eq_self.mpr
  intro x hx
  rw [List.find?_eq_none] at hfind
  have := hfind x hx
  simpa using this

/-- In a store with distinct owners, membership determines the lookup. -/
theorem find?_of_mem_distinct (l : List Validator) (u : Validator)
    (hd : distinctOwners l) (hu : u ∈ l) :
    l.find? (fun w => w.owner == u.owner) = some u := by
  induction l with
  | nil => simp at hu
  | cons a l ih =>
    rw [distinctOwners, List.pairwise_cons] at hd
    rcases List.mem_cons.mp hu with h | h
    · subst h
      exact find?_cons_pos (fun w : Validator => w.owner == u.owner) u l (by simp)
    · have hne : a.owner ≠ u.owner := hd.1 u h
      rw [find?_cons_neg (fun w : Validator => w.owner == u.owner) a l (by simp [hne])]
      exact ih hd.2 h

/-- A successful owner lookup returns a record with that owner. -/
theorem owner_of_find? (l : List Validator) (o : Nat) (u : Validator)
    (h : l.find? (fun w => w.owner == o) = some u) : u.owner = o := by
  have := List.find?_some h
  simpa using this

/-- The index length is the number of indexable records. -/
theorem length_powerIndexOf (l : List Validator) :
    (powerIndexOf l).length = (l.filter inPowerIndex).length :=
  (perm_powerIndexOf l).length_eq

/-- If every `p` is a `q` and the counts agree, every `q` is a `p`. -/
theorem countP_eq_imp (l : List Validator) (p q : Validator → Bool) :
    (∀ a ∈ l, p a = true → q a = true) →
    l.countP p = l.countP q →
    ∀ a ∈ l, q a = true → p a = true := by
  induction l with
  | nil =>
    intro _ _ a ha
    simp at ha
  | cons b l ih =>
    intro himp hcnt a ha hqa
    have himpl : ∀ x ∈ l, p x = true → q x = true :=
      fun x hx => himp x (List.mem_cons_of_mem _ hx)
    have hle : l.countP p ≤ l.countP q := List.countP_mono_left himpl
    rw [List.countP_cons, List.countP_cons] at hcnt
    have hhead : (if p b then 1 else 0) ≤ (if q b then 1 else 0) := by
      by_cases hpb : p b = true
      · have := himp b (List.mem_cons_self b l) hpb
        simp [hpb, this]
      · by_cases hqb : q b = true <;> simp [hpb, hqb]
    have hcnt2 : l.countP p = l.countP q := by omega
    have hheq : (if p b then 1 else 0) = (if q b then 1 else 0) := by omega
    rcases List.mem_cons.mp ha with h | h
    · subst h
      by_cases hpa : p a = true
      · exact hpa
      · exfalso
        rw [if_neg (by simpa using hpa), if_pos hqa] at hheq
        simp at hheq
    · exact ih himpl hcnt2 a h hqa

/-- `setPending` keeps at most one entry per owner. -/
theorem pairwise_setPending (m : List (Nat × Nat × ℤ)) (o pk : Nat) (pow : ℤ)
    (hm : m.Pairwise (fun a b => a.1 ≠ b.1)) :
    (setPending m o pk pow).Pairwise (fun a b => a.1 ≠ b.1) := by
  rw [setPending, List.pairwise_cons]
  constructor
  · intro e he
    have := List.mem_filter.mp he
    have h2 := this.2
    simp only [bne_iff_ne, ne_eq] at h2
    exact fun hco => h2 (by rw [← hco])
  · exact List.Pairwise.sublist (List.filter_sublist m) hm

/-- `emitFor` keeps at most one entry per owner. -/
theorem pairwise_emitFor (oldL newL : List Validator) (o : Nat) (m : List (Nat × Nat × ℤ))
    (hm : m.Pairwise (fun a b => a.1 ≠ b.1)) :
    (emitFor oldL newL o m).Pairwise (fun a b => a.1 ≠ b.1) := by
  rw [emitFor]
  by_cases hab : visibleAt newL o = visibleAt oldL o
  · simp only [hab, if_true]
    exact hm
  · simp only [hab, if_false]
    cases ha : visibleAt newL o with
    | some pr =>
      cases pr with
      | mk pk p => exact pairwise_setPending m o pk p hm
    | none =>
      cases hb : visibleAt oldL o with
      | some pr =>
        cases pr with
        | mk pk p => exact pairwise_setPending m o pk 0 hm
      | none => exact hm

/-- The entry count of `setPending` at its own key is one. -/
theorem countKey_setPending_self (m : List (Nat × Nat × ℤ)) (o pk : Nat) (pow : ℤ) :
    countKey (setPending m o pk pow) o = 1 := by
  rw [countKey, setPending, List.countP_cons]
  have h1 : ((o, pk, pow).1 == o) = true := by simp
  rw [if_pos h1]
  have : (m.filter (fun e => e.1 != o)).countP (fun e => e.1 == o) = 0 := by
    rw [List.countP_eq_length_filter, List.filter_filter]
    have : ∀ e : Nat × Nat × ℤ, ((e.1 == o) && (e.1 != o)) = false := by
      intro e
      by_cases h : e.1 = o <;> simp [h]
    rw [List.filter_congr (fun e _ => this e)]
    simp
  omega

/-- The entry count of `setPending` at another key is unchanged. -/
theorem countKey_setPending_other (m : List (Nat × Nat × ℤ)) (o pk : Nat) (pow : ℤ)
    (o2 : Nat) (hne : o2 ≠ o) :
    countKey (setPending m o pk pow) o2 = countKey m o2 := by
  rw [countKey, setPending, List.countP_cons]
  have h1 : ((o, pk, pow).1 == o2) = false := by simp [Ne.symm hne]
  rw [if_neg (by simp [h1])]
  rw [countKey]
  have : (m.filter (fun e => e.1 != o)).countP (fun e => e.1 == o2)
      = m.countP (fun e => (e.1 == o2) && (e.1 != o)) := by
    rw [List.countP_eq_length_filter, List.countP_eq_length_filter, List.filter_filter]
  rw [this]
  have : m.countP (fun e => (e.1 == o2) && (e.1 != o)) = m.countP (fun e => e.1 == o2) := by
    apply List.countP_congr
    intro e _
    by_cases h : e.1 = o2
    · subst h
      simp [hne]
    · simp [h]
  omega

/-- The incoming validator after normalization keeps its owner. -/
theorem normVal_owner (s : State) (vIn : Validator) :
    (normVal s vIn).owner = vIn.owner := by
  rw [normVal]
  cases oldOf s vIn <;> rfl

/-- The incoming validator after normalization keeps its power. -/
theorem normVal_tokens (s : State) (vIn : Validator) :
    (normVal s vIn).tokens = vIn.tokens := by
  rw [normVal]
  cases oldOf s vIn <;> rfl

/-- The incoming validator after normalization keeps its public key. -/
theorem normVal_pubKey (s : State) (vIn : Validator) :
    (normVal s vIn).pubKey = vIn.pubKey := by
  rw [normVal]
  cases oldOf s vIn <;> rfl

/-- The incoming validator after normalization keeps its status field. -/
theorem normVal_status (s : State) (vIn : Validator) :
    (normVal s vIn).status = vIn.status := by
  rw [normVal]
  cases oldOf s vIn <;> rfl

/-- A present lookup pins the stored record and its owner. -/
theorem oldOf_some (s : State) (vIn : Validator) (w : Validator)
    (h : oldOf s vIn = some w) : w ∈ s.validators ∧ w.owner = vIn.owner := by
  rw [oldOf] at h
  exact ⟨List.mem_of_find?_eq_some h, owner_of_find? _ _ _ h⟩

/-! ### Analyzing the belongs decision -/

/-- What a positive belongs decision means. -/
theorem belongs_true_elim (s : State) (vIn : Validator) (h : belongs s vIn = true) :
    keepOf s vIn ≠ .revoked ∧ 0 < vIn.tokens ∧ 0 < s.maxValidators ∧
      ((powerIndexOf (othersOf s vIn.owner)).length < s.maxValidators ∨
        ∃ c, (powerIndexOf (othersOf s vIn.owner)).get? (s.maxValidators - 1) = some c ∧
          c.tokens < vIn.tokens) := by
  rw [belongs, Bool.and_eq_true, belongsDecision, Bool.and_eq_true, Bool.and_eq_true] at h
  obtain ⟨hkeep, ⟨ht, hm⟩, hrest⟩ := h
  refine ⟨by simpa using hkeep, by simpa using ht, by simpa using hm, ?_⟩
  by_cases hroom : (powerIndexOf (othersOf s vIn.owner)).length < s.maxValidators
  · exact Or.inl hroom
  · right
    rw [if_neg hroom] at hrest
    cases hc : (powerIndexOf (othersOf s vIn.owner)).get? (s.maxValidators - 1) with
    | none => rw [hc] at hrest; simp at hrest
    | some c =>
      rw [hc] at hrest
      exact ⟨c, rfl, by simpa using hrest⟩

/-- What a negative belongs decision means, for a non-revoked validator with
positive power when at least one slot exists. -/
theorem belongs_false_elim (s : State) (vIn : Validator) (h : belongs s vIn = false)
    (hkeep : keepOf s vIn ≠ .revoked) (ht : 0 < vIn.tokens) (hm : 0 < s.maxValidators) :
    s.maxValidators ≤ (powerIndexOf (othersOf s vIn.owner)).length ∧
      ∃ c, (powerIndexOf (othersOf s vIn.owner)).get? (s.maxValidators - 1) = some c ∧
        vIn.tokens ≤ c.tokens := by
  rw [belongs] at h
  have hkeepb : (!(keepOf s vIn == BondStatus.revoked)) = true := by
    simp [hkeep]
  rw [hkeepb, Bool.true_and, belongsDecision] at h
  have htb : decide (0 < vIn.tokens) = true := by simpa using ht
  have hmb : decide (0 < s.maxValidators) = true := by simpa using hm
  rw [htb, hmb] at h
  simp only [Bool.true_and] at h
  by_cases hroom : (powerIndexOf (othersOf s vIn.owner)).length < s.maxValidators
  · rw [if_pos hroom] at h
    cases h
  · refine ⟨le_of_not_lt hroom, ?_⟩
    rw [if_neg hroom] at h
    cases hc : (powerIndexOf (othersOf s vIn.owner)).get? (s.maxValidators - 1) with
    | none =>
      exfalso
      rw [List.get?_eq_none] at hc
      omega
    | some c =>
      rw [hc] at h
      have h2 : decide (c.tokens < vIn.tokens) = false := h
      exact ⟨c, rfl, le_of_not_lt (by simpa using h2)⟩

/-- The rank-`m` index entry is one of the remaining records. -/
theorem index_get?_mem (L : List Validator) (k : Nat) (c : Validator)
    (h : (powerIndexOf L).get? k = some c) : c ∈ L ∧ inPowerIndex c = true := by
  have hmem : c ∈ powerIndexOf L := List.get?_mem h
  have := (perm_powerIndexOf L).mem_iff.mp hmem
  rw [List.mem_filter] at this
  exact this

/-! ### Counting machinery for the bonded-set invariant -/

/-- Bonded validators with positive power from count equality: when the
bonded count matches the positive count, positivity forces bondedness. -/
theorem pos_imp_bonded_of_counts (L : List Validator)
    (himp : ∀ u ∈ L, u.status = .bonded → 0 < u.tokens)
    (hcnt : L.countP (fun u => u.status == .bonded)
      = L.countP (fun u => decide (0 < u.tokens))) :
    ∀ u ∈ L, 0 < u.tokens → u.status = .bonded := by
  intro u hu hpos
  have := countP_eq_imp L (fun u => u.status == .bonded) (fun u => decide (0 < u.tokens))
    (fun a ha hb => by
      have := himp a ha (by simpa using hb)
      simpa using this)
    hcnt u hu (by simpa using hpos)
  simpa using this

/-- When every positive-power record is bonded (and powers are nonnegative,
no record is revoked), the by-power index is exactly the bonded set. -/
theorem index_length_eq_bonded (L : List Validator)
    (hnn : ∀ u ∈ L, 0 ≤ u.tokens)
    (hnr : ∀ u ∈ L, u.status ≠ .revoked)
    (hpb : ∀ u ∈ L, 0 < u.tokens → u.status = .bonded) :
    (L.filter inPowerIndex).length = L.countP (fun u => u.status == .bonded) := by
  rw [← List.countP_eq_length_filter]
  apply List.countP_congr
  intro u hu
  cases hst : u.status with
  | bonded => simp [inPowerIndex, hst]
  | revoked => exact absurd hst (hnr u hu)
  | unbonded =>
    have h1 : ¬ (0 < u.tokens) := by
      intro hpos
      rw [hpb u hu hpos] at hst
      cases hst
    have h2 : u.tokens = 0 := le_antisymm (le_of_not_lt h1) (hnn u hu)
    simp [inPowerIndex, hst, h2]

/-- The bonded count never exceeds the index size. -/
theorem bonded_le_index (L : List Validator) :
    L.countP (fun u => u.status == .bonded) ≤ (L.filter inPowerIndex).length := by
  rw [← List.countP_eq_length_filter]
  apply List.countP_mono_left
  intro u _ h
  rw [inPowerIndex, Bool.or_eq_true]
  exact Or.inl h

/-- Bonded validators are counted among the positive ones. -/
theorem bonded_le_pos (L : List Validator)
    (himp : ∀ u ∈ L, u.status = .bonded → 0 < u.tokens) :
    L.countP (fun u => u.status == .bonded) ≤ L.countP (fun u => decide (0 < u.tokens)) := by
  apply List.countP_mono_left
  intro u hu h
  have := himp u hu (by simpa using h)
  simpa using this

/-- Filtering preserves owner distinctness. -/
theorem distinctOwners_filter (l : List Validator) (p : Validator → Bool)
    (hd : distinctOwners l) : distinctOwners (l.filter p) :=
  List.Pairwise.sublist (List.filter_sublist l) hd

/-- Members of the others list. -/
theorem mem_othersOf (s : State) (o : Nat) (u : Validator) (h : u ∈ othersOf s o) :
    u ∈ s.validators ∧ u.owner ≠ o := by
  rw [othersOf, List.mem_filter] at h
  exact ⟨h.1, by simpa using h.2⟩

/-- A strict count surplus of positives over bonded, witnessed by a positive
non-bonded member. -/
theorem pos_surplus (L : List Validator) (hd : distinctOwners L) (w : Validator)
    (hw : w ∈ L) (hpos : 0 < w.tokens) (hnb : w.status ≠ .bonded)
    (himp : ∀ u ∈ L, u.status = .bonded → 0 < u.tokens) :
    L.countP (fun u => u.status == .bonded) + 1 ≤ L.countP (fun u => decide (0 < u.tokens)) := by
  have hfind : L.find? (fun x => x.owner == w.owner) = some w := find?_of_mem_distinct L w hd hw
  have hsplitB := countP_split_at_owner L w.owner w (fun u => u.status == .bonded) hd hfind
  have hsplitP := countP_split_at_owner L w.owner w (fun u => decide (0 < u.tokens)) hd hfind
  have hmono : (L.filter (fun x => x.owner != w.owner)).countP (fun u => u.status == .bonded)
      ≤ (L.filter (fun x => x.owner != w.owner)).countP (fun u => decide (0 < u.tokens)) := by
    apply bonded_le_pos
    intro u hu
    exact himp u (List.mem_of_mem_filter hu)
  have hB : (if (fun u => u.status == BondStatus.bonded) w = true then 1 else 0) = 0 := by
    simp [hnb]
  have hP : (if (fun u => decide (0 < u.tokens)) w = true then 1 else 0) = 1 := by
    simp [hpos]
  omega

/-- The bonded count as a `countP`. -/
theorem bondedCount_countP (s : State) :
    bondedCount s = s.validators.countP (fun u => u.status == .bonded) := by
  rw [bondedCount, bondedSet, List.countP_eq_length_filter]

/-- The bonded-others length as a `countP`. -/
theorem bondedOthersOf_length (s : State) (vIn : Validator) :
    (bondedOthersOf s vIn).length
      = (othersOf s vIn.owner).countP (fun u => u.status == .bonded) := by
  rw [bondedOthersOf, List.countP_eq_length_filter]

/-- A prior-bonded validator is stored and bonded. -/
theorem priorBonded_true_elim (s : State) (vIn : Validator)
    (h : priorBonded s vIn = true) :
    ∃ w, oldOf s vIn = some w ∧ w.status = .bonded := by
  rw [priorBonded] at h
  cases ho : oldOf s vIn with
  | none => rw [ho] at h; cases h
  | some w =>
    rw [ho] at h
    exact ⟨w, rfl, by simpa using h⟩

/-- A non-prior-bonded validator is absent or stored non-bonded. -/
theorem priorBonded_false_elim (s : State) (vIn : Validator)
    (h : priorBonded s vIn = false) :
    oldOf s vIn = none ∨ ∃ w, oldOf s vIn = some w ∧ w.status ≠ .bonded := by
  rw [priorBonded] at h
  cases ho : oldOf s vIn with
  | none => exact Or.inl rfl
  | some w =>
    rw [ho] at h
    exact Or.inr ⟨w, rfl, by simpa using h⟩

/-- The transition-table key for a stored validator. -/
theorem keepOf_present (s : State) (vIn w : Validator) (h : oldOf s vIn = some w) :
    keepOf s vIn = w.status := by
  rw [keepOf, h]

/-- The transition-table key for a fresh validator. -/
theorem keepOf_absent (s : State) (vIn : Validator) (h : oldOf s vIn = none) :
    keepOf s vIn = vIn.status := by
  rw [keepOf, h]

/-- Setting the status keeps the owner. -/
theorem setStatus_owner (st : BondStatus) (v : Validator) :
    (setStatus st v).owner = v.owner := rfl

/-- Setting the status keeps the power. -/
theorem setStatus_tokens (st : BondStatus) (v : Validator) :
    (setStatus st v).tokens = v.tokens := rfl

/-- Setting the status keeps the public key. -/
theorem setStatus_pubKey (st : BondStatus) (v : Validator) :
    (setStatus st v).pubKey = v.pubKey := rfl

/-- Setting the status sets the status. -/
theorem setStatus_status (st : BondStatus) (v : Validator) :
    (setStatus st v).status = st := rfl

/-- The invariant survives the stay-bonded transition. -/
theorem inv_stayBondedCase (s : State) (vIn w : Validator)
    (hInv : StoreInv s) (hw : oldOf s vIn = some w) (hwb : w.status = .bonded)
    (hbel : belongs s vIn = true) :
    StoreInv (stayBondedCase s vIn) := by
  obtain ⟨hdist, hnr, hnn, hbp, hcount, hpend⟩ := hInv
  obtain ⟨hkeep, ht, hm, _⟩ := belongs_true_elim s vIn hbel
  obtain ⟨hwmem, hwown⟩ := oldOf_some s vIn w hw
  have hfind : s.validators.find? (fun u => u.owner == vIn.owner) = some w := hw
  have hown : (setStatus BondStatus.bonded (normVal s vIn)).owner = vIn.owner := by
    rw [setStatus_owner, normVal_owner]
  have hfind2 : s.validators.find?
      (fun u => u.owner == (setStatus BondStatus.bonded (normVal s vIn)).owner)
      = some w := by rw [hown]; exact hfind
  refine ⟨?_, ?_, ?_, ?_, ?_, ?_⟩
  · exact distinctOwners_storeSet s.validators _ hdist
  · intro v hv
    rcases mem_storeSet _ _ _ hv with h | h
    · exact hnr v h
    · rw [h, setStatus_status]
      intro hcon
      cases hcon
  · intro v hv
    rcases mem_storeSet _ _ _ hv with h | h
    · exact hnn v h
    · rw [h, setStatus_tokens, normVal_tokens]
      exact le_of_lt ht
  · intro v hv
    rcases mem_storeSet _ _ _ hv with h | h
    · exact hbp v h
    · rw [h, setStatus_tokens, normVal_tokens]
      intro _
      exact ht
  · have hB := countP_storeSet_present s.validators _ w
      (fun u => u.status == .bonded) hdist hfind2
    have hP := countP_storeSet_present s.validators _ w
      (fun u => decide (0 < u.tokens)) hdist hfind2
    have hBw : ((fun u : Validator => u.status == BondStatus.bonded) w = true) := by
      simp [hwb]
    have hBv : ((fun u : Validator => u.status == BondStatus.bonded)
        (setStatus BondStatus.bonded (normVal s vIn)) = true) := by
      simp [setStatus_status]
    have hPv : ((fun u : Validator => decide (0 < u.tokens))
        (setStatus BondStatus.bonded (normVal s vIn)) = true) := by
      show decide (0 < (setStatus BondStatus.bonded (normVal s vIn)).tokens) = true
      rw [setStatus_tokens, normVal_tokens]
      simpa using ht
    have hPw : ((fun u : Validator => decide (0 < u.tokens)) w = true) := by
      simpa using hbp w hwmem hwb
    rw [bondedCount_countP] at hcount
    show bondedCount (stayBondedCase s vIn) = min _ (posCount (stayBondedCase s vIn))
    rw [bondedCount_countP]
    have hval : (stayBondedCase s vIn).validators
        = storeSet s.validators (setStatus BondStatus.bonded (normVal s vIn)) := rfl
    have hmax : (stayBondedCase s vIn).maxValidators = s.maxValidators := rfl
    rw [posCount] at hcount ⊢
    rw [hval, hmax]
    rw [hBw, hBv] at hB
    rw [hPw, hPv] at hP
    simp only [if_true] at hB hP
    omega
  · exact pairwise_emitFor _ _ _ _ hpend

/-- The invariant survives the keep transition. -/
theorem inv_keepCase (s : State) (vIn : Validator)
    (hInv : StoreInv s) (hpb : priorBonded s vIn = false) (hbel : belongs s vIn = false)
    (ht0 : 0 ≤ vIn.tokens) (hst : vIn.status ≠ .revoked) :
    StoreInv (keepCase s vIn) := by
  obtain ⟨hdist, hnr, hnn, hbp, hcount, hpend⟩ := hInv
  have hkeepne : keepOf s vIn ≠ .revoked := by
    rcases priorBonded_false_elim s vIn hpb with h | ⟨w, hw, _⟩
    · rw [keepOf_absent s vIn h]
      exact hst
    · rw [keepOf_present s vIn w hw]
      exact hnr w (oldOf_some s vIn w hw).1
  have hif : (if keepOf s vIn == BondStatus.revoked
      then BondStatus.revoked else BondStatus.unbonded) = BondStatus.unbonded := by
    rw [if_neg]
    simp [hkeepne]
  have hvalown : (setStatus (if keepOf s vIn == BondStatus.revoked
      then BondStatus.revoked else BondStatus.unbonded) (normVal s vIn)).owner
      = vIn.owner := by
    rw [setStatus_owner, normVal_owner]
  have hOmono : (othersOf s vIn.owner).countP (fun u => u.status == .bonded)
      ≤ (othersOf s vIn.owner).countP (fun u => decide (0 < u.tokens)) :=
    bonded_le_pos _ (fun u hu => hbp u (mem_othersOf s vIn.owner u hu).1)
  refine ⟨?_, ?_, ?_, ?_, ?_, ?_⟩
  · exact distinctOwners_storeSet _ _ hdist
  · intro v hv
    rcases mem_storeSet _ _ _ hv with h | h
    · exact hnr v h
    · rw [h, setStatus_status, hif]
      intro hcon
      cases hcon
  · intro v hv
    rcases mem_storeSet _ _ _ hv with h | h
    · exact hnn v h
    · rw [h, setStatus_tokens, normVal_tokens]
      exact ht0
  · intro v hv
    rcases mem_storeSet _ _ _ hv with h | h
    · exact hbp v h
    · intro hcon
      rw [h, setStatus_status, hif] at hcon
      cases hcon
  · show bondedCount (keepCase s vIn) = min _ (posCount (keepCase s vIn))
    have hval : (keepCase s vIn).validators
        = storeSet s.validators (setStatus (if keepOf s vIn == BondStatus.revoked
            then BondStatus.revoked else BondStatus.unbonded) (normVal s vIn)) := rfl
    have hmax : (keepCase s vIn).maxValidators = s.maxValidators := rfl
    rw [bondedCount_countP] at hcount ⊢
    rw [posCount] at hcount ⊢
    rw [hval, hmax]
    have hBv : ((fun u : Validator => u.status == BondStatus.bonded)
        (setStatus (if keepOf s vIn == BondStatus.revoked
          then BondStatus.revoked else BondStatus.unbonded) (normVal s vIn))) = false := by
      simp only [setStatus_status, hif]
      simp
    have hPvIff : ((fun u : Validator => decide (0 < u.tokens))
        (setStatus (if keepOf s vIn == BondStatus.revoked
          then BondStatus.revoked else BondStatus.unbonded) (normVal s vIn)))
        = decide (0 < vIn.tokens) := by
      show decide (0 < (setStatus _ (normVal s vIn)).tokens) = _
      rw [setStatus_tokens, normVal_tokens]
    cases ho : oldOf s vIn with
    | some w =>
      have hwnb : ((fun u : Validator => u.status == BondStatus.bonded) w) = false := by
        rw [priorBonded, ho] at hpb
        exact hpb
      obtain ⟨hwmem, hwown⟩ := oldOf_some s vIn w ho
      have hfind2 : s.validators.find?
          (fun u => u.owner == (setStatus (if keepOf s vIn == BondStatus.revoked
            then BondStatus.revoked else BondStatus.unbonded) (normVal s vIn)).owner)
          = some w := by rw [hvalown]; exact ho
      have hB := countP_storeSet_present s.validators _ w
        (fun u => u.status == .bonded) hdist hfind2
      have hP := countP_storeSet_present s.validators _ w
        (fun u => decide (0 < u.tokens)) hdist hfind2
      have hsplitB := countP_split_at_owner s.validators vIn.owner w
        (fun u => u.status == .bonded) hdist ho
      have hsplitP := countP_split_at_owner s.validators vIn.owner w
        (fun u => decide (0 < u.tokens)) hdist ho
      have hoth : s.validators.filter (fun u => u.owner != vIn.owner)
          = othersOf s vIn.owner := rfl
      rw [hoth] at hsplitB hsplitP
      rw [hBv] at hB
      rw [hPvIff] at hP
      rw [hwnb] at hB hsplitB
      simp only [Bool.false_eq_true, if_false, add_zero] at hB hsplitB
      by_cases hPt : 0 < vIn.tokens
      · have hdec : decide (0 < vIn.tokens) = true := by simpa using hPt
        rw [hdec] at hP
        simp only [if_true] at hP
        by_cases hPw : 0 < w.tokens
        · have hPwb : ((fun u : Validator => decide (0 < u.tokens)) w) = true := by
            simpa using hPw
          simp only [hPwb, if_true] at hP hsplitP
          omega
        · have hPwb : ((fun u : Validator => decide (0 < u.tokens)) w) = false := by
            simpa using hPw
          simp only [hPwb, Bool.false_eq_true, if_false, add_zero] at hP hsplitP
          by_cases hm0 : 0 < s.maxValidators
          · obtain ⟨hlen, c, hc, hcle⟩ := belongs_false_elim s vIn hbel hkeepne hPt hm0
            rw [length_powerIndexOf] at hlen
            by_cases hbad : (othersOf s vIn.owner).countP (fun u => decide (0 < u.tokens)) + 1
                ≤ s.maxValidators
            · exfalso
              have hcEq : (othersOf s vIn.owner).countP (fun u => u.status == .bonded)
                  = (othersOf s vIn.owner).countP (fun u => decide (0 < u.tokens)) := by
                omega
              have himpO := pos_imp_bonded_of_counts (othersOf s vIn.owner)
                (fun u hu => hbp u (mem_othersOf s vIn.owner u hu).1) hcEq
              have hagree := index_length_eq_bonded (othersOf s vIn.owner)
                (fun u hu => hnn u (mem_othersOf s vIn.owner u hu).1)
                (fun u hu => hnr u (mem_othersOf s vIn.owner u hu).1) himpO
              omega
            · omega
          · omega
      · have hdec : decide (0 < vIn.tokens) = false := by simpa using hPt
        rw [hdec] at hP
        simp only [Bool.false_eq_true, if_false, add_zero] at hP
        by_cases hPw : 0 < w.tokens
        · have hPwb : ((fun u : Validator => decide (0 < u.tokens)) w) = true := by
            simpa using hPw
          simp only [hPwb, if_true] at hP hsplitP
          omega
        · have hPwb : ((fun u : Validator => decide (0 < u.tokens)) w) = false := by
            simpa using hPw
          simp only [hPwb, Bool.false_eq_true, if_false, add_zero] at hP hsplitP
          omega
    | none =>
      have hfind2 : s.validators.find?
          (fun u => u.owner == (setStatus (if keepOf s vIn == BondStatus.revoked
            then BondStatus.revoked else BondStatus.unbonded) (normVal s vIn)).owner)
          = none := by rw [hvalown]; exact ho
      have hB := countP_storeSet_absent s.validators _
        (fun u => u.status == .bonded) hfind2
      have hP := countP_storeSet_absent s.validators _
        (fun u => decide (0 < u.tokens)) hfind2
      have hoth : othersOf s vIn.owner = s.validators := by
        rw [othersOf]
        exact filter_ne_of_absent s.validators vIn.owner ho
      rw [hBv] at hB
      rw [hPvIff] at hP
      simp only [Bool.false_eq_true, if_false, add_zero] at hB
      by_cases hPt : 0 < vIn.tokens
      · have hdec : decide (0 < vIn.tokens) = true := by simpa using hPt
        rw [hdec] at hP
        simp only [if_true] at hP
        by_cases hm0 : 0 < s.maxValidators
        · obtain ⟨hlen, c, hc, hcle⟩ := belongs_false_elim s vIn hbel hkeepne hPt hm0
          rw [length_powerIndexOf, hoth] at hlen
          by_cases hbad : s.validators.countP (fun u => decide (0 < u.tokens)) + 1
              ≤ s.maxValidators
          · exfalso
            have hcEq : s.validators.countP (fun u => u.status == .bonded)
                = s.validators.countP (fun u => decide (0 < u.tokens)) := by
              omega
            have himpO := pos_imp_bonded_of_counts s.validators hbp hcEq
            have hagree := index_length_eq_bonded s.validators hnn hnr himpO
            omega
          · omega
        · omega
      · have hdec : decide (0 < vIn.tokens) = false := by simpa using hPt
        rw [hdec] at hP
        simp only [Bool.false_eq_true, if_false, add_zero] at hP
        omega
  · exact pairwise_emitFor _ _ _ _ hpend

/-- Bonding keeps the owner. -/
theorem bondVal_owner (h : ℤ) (v : Validator) : (bondVal h v).owner = v.owner := rfl

/-- Bonding keeps the power. -/
theorem bondVal_tokens (h : ℤ) (v : Validator) : (bondVal h v).tokens = v.tokens := rfl

/-- Bonding sets the status. -/
theorem bondVal_status (h : ℤ) (v : Validator) : (bondVal h v).status = .bonded := rfl

/-- Unbonding keeps the owner. -/
theorem unbondVal_owner (v : Validator) : (unbondVal v).owner = v.owner := rfl

/-- Unbonding keeps the power. -/
theorem unbondVal_tokens (v : Validator) : (unbondVal v).tokens = v.tokens := rfl

/-- Unbonding sets the status. -/
theorem unbondVal_status (v : Validator) : (unbondVal v).status = .unbonded := rfl

/-- Bonding keeps the public key. -/
theorem bondVal_pubKey (h : ℤ) (v : Validator) : (bondVal h v).pubKey = v.pubKey := rfl

/-- Unbonding keeps the public key. -/
theorem unbondVal_pubKey (v : Validator) : (unbondVal v).pubKey = v.pubKey := rfl

/-- What the displaced cliff validator satisfies. -/
theorem displaced_facts (s : State) (vIn d : Validator)
    (hd : cliffOf (bondedOthersOf s vIn) = some d) :
    d ∈ s.validators ∧ d.owner ≠ vIn.owner ∧ d.status = .bonded := by
  have hmem := cliffOf_mem _ d hd
  rw [bondedOthersOf, List.mem_filter] at hmem
  obtain ⟨ho, hb⟩ := hmem
  obtain ⟨hmem2, hne⟩ := mem_othersOf s vIn.owner d ho
  exact ⟨hmem2, hne, by simpa using hb⟩

/-- The invariant survives the bond transition. -/
theorem inv_bondCase (s : State) (vIn : Validator)
    (hInv : StoreInv s) (hpb : priorBonded s vIn = false) (hbel : belongs s vIn = true) :
    StoreInv (bondCase s vIn) := by
  obtain ⟨hdist, hnr, hnn, hbp, hcount, hpend⟩ := hInv
  obtain ⟨hkeep, ht, hm, _⟩ := belongs_true_elim s vIn hbel
  have hvown : (bondVal s.height (normVal s vIn)).owner = vIn.owner := by
    rw [bondVal_owner, normVal_owner]
  have hOmono : (othersOf s vIn.owner).countP (fun u => u.status == .bonded)
      ≤ (othersOf s vIn.owner).countP (fun u => decide (0 < u.tokens)) :=
    bonded_le_pos _ (fun u hu => hbp u (mem_othersOf s vIn.owner u hu).1)
  have hdistStore : distinctOwners (storeSet s.validators (bondVal s.height (normVal s vIn))) :=
    distinctOwners_storeSet _ _ hdist
  have hmemStore : ∀ v ∈ storeSet s.validators (bondVal s.height (normVal s vIn)),
      (v ∈ s.validators ∨ v = bondVal s.height (normVal s vIn)) := by
    intro v hv
    exact mem_storeSet _ _ _ hv
  by_cases hfull : s.maxValidators ≤ (bondedOthersOf s vIn).length
  · cases hd : cliffOf (bondedOthersOf s vIn) with
    | none =>
      exfalso
      rw [cliffOf_none_iff] at hd
      rw [hd] at hfull
      simp at hfull
      omega
    | some d =>
      have hcase : bondCase s vIn = bondDisplace s vIn d := by
        rw [bondCase, if_pos hfull, hd]
      rw [hcase]
      obtain ⟨hdmem, hdne, hdb⟩ := displaced_facts s vIn d hd
      have hdpos : 0 < d.tokens := hbp d hdmem hdb
      have hfdl1 : (storeSet s.validators (bondVal s.height (normVal s vIn))).find?
          (fun u => u.owner == d.owner) = some d := by
        rw [find?_storeSet_other s.validators _ d.owner (by rw [hvown]; exact hdne)]
        exact find?_of_mem_distinct s.validators d hdist hdmem
      refine ⟨?_, ?_, ?_, ?_, ?_, ?_⟩
      · exact distinctOwners_adjust _ _ _
          (fun u hu => by rw [unbondVal_owner]; exact hu) hdistStore
      · intro v hv
        rcases mem_adjust _ _ _ _ hv with h | ⟨u, hu, _, heq⟩
        · rcases hmemStore v h with h2 | h2
          · exact hnr v h2
          · rw [h2, bondVal_status]
            intro hcon
            cases hcon
        · rw [heq, unbondVal_status]
          intro hcon
          cases hcon
      · intro v hv
        rcases mem_adjust _ _ _ _ hv with h | ⟨u, hu, _, heq⟩
        · rcases hmemStore v h with h2 | h2
          · exact hnn v h2
          · rw [h2, bondVal_tokens, normVal_tokens]
            exact le_of_lt ht
        · rw [heq, unbondVal_tokens]
          rcases hmemStore u hu with h2 | h2
          · exact hnn u h2
          · rw [h2, bondVal_tokens, normVal_tokens]
            exact le_of_lt ht
      · intro v hv
        rcases mem_adjust _ _ _ _ hv with h | ⟨u, hu, _, heq⟩
        · rcases hmemStore v h with h2 | h2
          · exact hbp v h2
          · rw [h2, bondVal_tokens, normVal_tokens]
            intro _
            exact ht
        · intro hcon
          rw [heq, unbondVal_status] at hcon
          cases hcon
      · show bondedCount _ = min _ (posCount _)
        have hval : (bondDisplace s vIn d).validators
            = adjust (storeSet s.validators (bondVal s.height (normVal s vIn)))
                d.owner unbondVal := rfl
        have hmax : (bondDisplace s vIn d).maxValidators = s.maxValidators := rfl
        rw [bondedCount_countP, posCount, hval, hmax]
        rw [bondedCount_countP, posCount] at hcount
        have hBd := countP_adjust (storeSet s.validators (bondVal s.height (normVal s vIn)))
          d.owner unbondVal d (fun u => u.status == .bonded) hdistStore hfdl1
        have hPd := countP_adjust (storeSet s.validators (bondVal s.height (normVal s vIn)))
          d.owner unbondVal d (fun u => decide (0 < u.tokens)) hdistStore hfdl1
        have hBdv : ((fun u : Validator => u.status == BondStatus.bonded) d) = true := by
          simp [hdb]
        have hBdu : ((fun u : Validator => u.status == BondStatus.bonded) (unbondVal d))
            = false := by simp [unbondVal_status]
        have hPdv : ((fun u : Validator => decide (0 < u.tokens)) d) = true := by
          simpa using hdpos
        have hPdu : ((fun u : Validator => decide (0 < u.tokens)) (unbondVal d)) = true := by
          show decide (0 < (unbondVal d).tokens) = true
          rw [unbondVal_tokens]
          simpa using hdpos
        simp only [hBdv, hBdu, hPdv, hPdu, if_true, Bool.false_eq_true, if_false,
          add_zero] at hBd hPd
        have hBb : ((fun u : Validator => u.status == BondStatus.bonded)
            (bondVal s.height (normVal s vIn))) = true := by simp [bondVal_status]
        have hPb : ((fun u : Validator => decide (0 < u.tokens))
            (bondVal s.height (normVal s vIn))) = true := by
          show decide (0 < (bondVal s.height (normVal s vIn)).tokens) = true
          rw [bondVal_tokens, normVal_tokens]
          simpa using ht
        rw [bondedOthersOf_length] at hfull
        cases ho : oldOf s vIn with
        | some w =>
          have hwnb : ((fun u : Validator => u.status == BondStatus.bonded) w) = false := by
            rw [priorBonded, ho] at hpb
            exact hpb
          obtain ⟨hwmem, hwown⟩ := oldOf_some s vIn w ho
          have hfind2 : s.validators.find?
              (fun u => u.owner == (bondVal s.height (normVal s vIn)).owner) = some w := by
            rw [hvown]; exact ho
          have hB := countP_storeSet_present s.validators _ w
            (fun u => u.status == .bonded) hdist hfind2
          have hP := countP_storeSet_present s.validators _ w
            (fun u => decide (0 < u.tokens)) hdist hfind2
          have hsplitB := countP_split_at_owner s.validators vIn.owner w
            (fun u => u.status == .bonded) hdist ho
          have hsplitP := countP_split_at_owner s.validators vIn.owner w
            (fun u => decide (0 < u.tokens)) hdist ho
          have hoth : s.validators.filter (fun u => u.owner != vIn.owner)
              = othersOf s vIn.owner := rfl
          rw [hoth] at hsplitB hsplitP
          simp only [hwnb, hBb, hPb, Bool.false_eq_true, if_false, if_true,
            add_zero] at hB hP hsplitB
          by_cases hPw : 0 < w.tokens
          · have hPwb : ((fun u : Validator => decide (0 < u.tokens)) w) = true := by
              simpa using hPw
            simp only [hPwb, if_true] at hP hsplitP
            omega
          · have hPwb : ((fun u : Validator => decide (0 < u.tokens)) w) = false := by
              simpa using hPw
            simp only [hPwb, Bool.false_eq_true, if_false, add_zero] at hP hsplitP
            omega
        | none =>
          have hfind2 : s.validators.find?
              (fun u => u.owner == (bondVal s.height (normVal s vIn)).owner) = none := by
            rw [hvown]; exact ho
          have hB := countP_storeSet_absent s.validators _
            (fun u => u.status == .bonded) hfind2
          have hP := countP_storeSet_absent s.validators _
            (fun u => decide (0 < u.tokens)) hfind2
          have hoth : othersOf s vIn.owner = s.validators := by
            rw [othersOf]
            exact filter_ne_of_absent s.validators vIn.owner ho
          rw [hoth] at hfull
          simp only [hBb, hPb, if_true] at hB hP
          omega
      · exact pairwise_emitFor _ _ _ _ (pairwise_emitFor _ _ _ _ hpend)
  · have hcase : bondCase s vIn = bondSolo s vIn := by
      rw [bondCase, if_neg hfull]
    rw [hcase]
    refine ⟨?_, ?_, ?_, ?_, ?_, ?_⟩
    · exact hdistStore
    · intro v hv
      rcases hmemStore v hv with h | h
      · exact hnr v h
      · rw [h, bondVal_status]
        intro hcon
        cases hcon
    · intro v hv
      rcases hmemStore v hv with h | h
      · exact hnn v h
      · rw [h, bondVal_tokens, normVal_tokens]
        exact le_of_lt ht
    · intro v hv
      rcases hmemStore v hv with h | h
      · exact hbp v h
      · rw [h, bondVal_tokens, normVal_tokens]
        intro _
        exact ht
    · show bondedCount _ = min _ (posCount _)
      have hval : (bondSolo s vIn).validators
          = storeSet s.validators (bondVal s.height (normVal s vIn)) := rfl
      have hmax : (bondSolo s vIn).maxValidators = s.maxValidators := rfl
      rw [bondedCount_countP, posCount, hval, hmax]
      rw [bondedCount_countP, posCount] at hcount
      have hBb : ((fun u : Validator => u.status == BondStatus.bonded)
          (bondVal s.height (normVal s vIn))) = true := by simp [bondVal_status]
      have hPb : ((fun u : Validator => decide (0 < u.tokens))
          (bondVal s.height (normVal s vIn))) = true := by
        show decide (0 < (bondVal s.height (normVal s vIn)).tokens) = true
        rw [bondVal_tokens, normVal_tokens]
        simpa using ht
      rw [bondedOthersOf_length] at hfull
      cases ho : oldOf s vIn with
      | some w =>
        have hwnb : ((fun u : Validator => u.status == BondStatus.bonded) w) = false := by
          rw [priorBonded, ho] at hpb
          exact hpb
        have hwnbp : w.status ≠ .bonded := by
          intro hcon
          simp [hcon] at hwnb
        obtain ⟨hwmem, hwown⟩ := oldOf_some s vIn w ho
        have hfind2 : s.validators.find?
            (fun u => u.owner == (bondVal s.height (normVal s vIn)).owner) = some w := by
          rw [hvown]; exact ho
        have hB := countP_storeSet_present s.validators _ w
          (fun u => u.status == .bonded) hdist hfind2
        have hP := countP_storeSet_present s.validators _ w
          (fun u => decide (0 < u.tokens)) hdist hfind2
        have hsplitB := countP_split_at_owner s.validators vIn.owner w
          (fun u => u.status == .bonded) hdist ho
        have hsplitP := countP_split_at_owner s.validators vIn.owner w
          (fun u => decide (0 < u.tokens)) hdist ho
        have hoth : s.validators.filter (fun u => u.owner != vIn.owner)
            = othersOf s vIn.owner := rfl
        rw [hoth] at hsplitB hsplitP
        simp only [hwnb, hBb, hPb, Bool.false_eq_true, if_false, if_true,
          add_zero] at hB hP hsplitB
        by_cases hPw : 0 < w.tokens
        · have hsurp := pos_surplus s.validators hdist w hwmem hPw hwnbp hbp
          have hPwb : ((fun u : Validator => decide (0 < u.tokens)) w) = true := by
            simpa using hPw
          simp only [hPwb, if_true] at hP hsplitP
          omega
        · have hPwb : ((fun u : Validator => decide (0 < u.tokens)) w) = false := by
            simpa using hPw
          simp only [hPwb, Bool.false_eq_true, if_false, add_zero] at hP hsplitP
          omega
      | none =>
        have hfind2 : s.validators.find?
            (fun u => u.owner == (bondVal s.height (normVal s vIn)).owner) = none := by
          rw [hvown]; exact ho
        have hB := countP_storeSet_absent s.validators _
          (fun u => u.status == .bonded) hfind2
        have hP := countP_storeSet_absent s.validators _
          (fun u => decide (0 < u.tokens)) hfind2
        have hoth : othersOf s vIn.owner = s.validators := by
          rw [othersOf]
          exact filter_ne_of_absent s.validators vIn.owner ho
        rw [hoth] at hfull
        simp only [hBb, hPb, if_true] at hB hP
        omega
    · exact pairwise_emitFor _ _ _ _ hpend

/-- Two members with the same owner coincide in a distinct store. -/
theorem eq_of_mem_owner (l : List Validator) (hd : distinctOwners l) (u p : Validator)
    (hu : u ∈ l) (hp : p ∈ l) (h : u.owner = p.owner) : u = p := by
  have h1 := find?_of_mem_distinct l u hd hu
  have h2 := find?_of_mem_distinct l p hd hp
  rw [h] at h1
  rw [h1] at h2
  exact Option.some.inj h2

/-- The invariant survives the unbond transition. -/
theorem inv_unbondCase (s : State) (vIn w : Validator)
    (hInv : StoreInv s) (hw : oldOf s vIn = some w) (hwb : w.status = .bonded)
    (hbel : belongs s vIn = false) (ht0 : 0 ≤ vIn.tokens) :
    StoreInv (unbondCase s vIn) := by
  obtain ⟨hdist, hnr, hnn, hbp, hcount, hpend⟩ := hInv
  obtain ⟨hwmem, hwown⟩ := oldOf_some s vIn w hw
  have hkeepne : keepOf s vIn ≠ .revoked := by
    rw [keepOf_present s vIn w hw, hwb]
    intro hcon
    cases hcon
  have hwpos : 0 < w.tokens := hbp w hwmem hwb
  have hBw : ((fun u : Validator => u.status == BondStatus.bonded) w) = true := by
    simp [hwb]
  have hPw : ((fun u : Validator => decide (0 < u.tokens)) w) = true := by
    simpa using hwpos
  have hvown : (unbondVal (normVal s vIn)).owner = vIn.owner := by
    rw [unbondVal_owner, normVal_owner]
  have hsplitB := countP_split_at_owner s.validators vIn.owner w
    (fun u => u.status == .bonded) hdist hw
  have hsplitP := countP_split_at_owner s.validators vIn.owner w
    (fun u => decide (0 < u.tokens)) hdist hw
  have hoth : s.validators.filter (fun u => u.owner != vIn.owner)
      = othersOf s vIn.owner := rfl
  rw [hoth] at hsplitB hsplitP
  simp only [hBw, hPw, if_true] at hsplitB hsplitP
  rw [bondedCount_countP, posCount] at hcount
  have hguard : (bondedOthersOf s vIn).length < s.maxValidators := by
    rw [bondedOthersOf_length]
    omega
  have hOmono : (othersOf s vIn.owner).countP (fun u => u.status == .bonded)
      ≤ (othersOf s vIn.owner).countP (fun u => decide (0 < u.tokens)) :=
    bonded_le_pos _ (fun u hu => hbp u (mem_othersOf s vIn.owner u hu).1)
  have hfind2 : s.validators.find?
      (fun u => u.owner == (unbondVal (normVal s vIn)).owner) = some w := by
    rw [hvown]; exact hw
  have hdistStore : distinctOwners (storeSet s.validators (unbondVal (normVal s vIn))) :=
    distinctOwners_storeSet _ _ hdist
  have hmemStore : ∀ v ∈ storeSet s.validators (unbondVal (normVal s vIn)),
      (v ∈ s.validators ∨ v = unbondVal (normVal s vIn)) := by
    intro v hv
    exact mem_storeSet _ _ _ hv
  have hB := countP_storeSet_present s.validators _ w
    (fun u => u.status == .bonded) hdist hfind2
  have hP := countP_storeSet_present s.validators _ w
    (fun u => decide (0 < u.tokens)) hdist hfind2
  have hBu : ((fun u : Validator => u.status == BondStatus.bonded)
      (unbondVal (normVal s vIn))) = false := by simp [unbondVal_status]
  have hPuIff : ((fun u : Validator => decide (0 < u.tokens))
      (unbondVal (normVal s vIn))) = decide (0 < vIn.tokens) := by
    show decide (0 < (unbondVal (normVal s vIn)).tokens) = _
    rw [unbondVal_tokens, normVal_tokens]
  simp only [hBw, hPw, hBu, hPuIff, if_true, Bool.false_eq_true, if_false,
    add_zero] at hB hP
  cases hp : promoteCandidate (othersOf s vIn.owner) with
  | some p =>
    have hcase : unbondCase s vIn = unbondPromote s vIn p := by
      rw [unbondCase, if_pos hguard, hp]
    rw [hcase]
    obtain ⟨hpoth, hpunb, hppos⟩ := promoteCandidate_some _ p hp
    obtain ⟨hpmem, hpne⟩ := mem_othersOf s vIn.owner p hpoth
    have hfdl1 : (storeSet s.validators (unbondVal (normVal s vIn))).find?
        (fun u => u.owner == p.owner) = some p := by
      rw [find?_storeSet_other s.validators _ p.owner (by rw [hvown]; exact hpne)]
      exact find?_of_mem_distinct s.validators p hdist hpmem
    refine ⟨?_, ?_, ?_, ?_, ?_, ?_⟩
    · exact distinctOwners_adjust _ _ _
        (fun u hu => by rw [bondVal_owner]; exact hu) hdistStore
    · intro v hv
      rcases mem_adjust _ _ _ _ hv with h | ⟨u, hu, _, heq⟩
      · rcases hmemStore v h with h2 | h2
        · exact hnr v h2
        · rw [h2, unbondVal_status]
          intro hcon
          cases hcon
      · rw [heq, bondVal_status]
        intro hcon
        cases hcon
    · intro v hv
      rcases mem_adjust _ _ _ _ hv with h | ⟨u, hu, _, heq⟩
      · rcases hmemStore v h with h2 | h2
        · exact hnn v h2
        · rw [h2, unbondVal_tokens, normVal_tokens]
          exact ht0
      · rw [heq, bondVal_tokens]
        rcases hmemStore u hu with h2 | h2
        · exact hnn u h2
        · rw [h2, unbondVal_tokens, normVal_tokens]
          exact ht0
    · intro v hv
      rcases mem_adjust _ _ _ _ hv with h | ⟨u, hu, huo, heq⟩
      · rcases hmemStore v h with h2 | h2
        · exact hbp v h2
        · intro hcon
          rw [h2, unbondVal_status] at hcon
          cases hcon
      · intro _
        rw [heq, bondVal_tokens]
        rcases hmemStore u hu with h2 | h2
        · have hup : u = p := eq_of_mem_owner s.validators hdist u p h2 hpmem
            (by rw [huo])
          rw [hup]
          exact hppos
        · exfalso
          apply hpne
          rw [← huo, h2, unbondVal_owner, normVal_owner]
    · show bondedCount _ = min _ (posCount _)
      have hval : (unbondPromote s vIn p).validators
          = adjust (storeSet s.validators (unbondVal (normVal s vIn)))
              p.owner (bondVal s.height) := rfl
      have hmax : (unbondPromote s vIn p).maxValidators = s.maxValidators := rfl
      rw [bondedCount_countP, posCount, hval, hmax]
      have hBp := countP_adjust (storeSet s.validators (unbondVal (normVal s vIn)))
        p.owner (bondVal s.height) p (fun u => u.status == .bonded) hdistStore hfdl1
      have hPp := countP_adjust (storeSet s.validators (unbondVal (normVal s vIn)))
        p.owner (bondVal s.height) p (fun u => decide (0 < u.tokens)) hdistStore hfdl1
      have hBpv : ((fun u : Validator => u.status == BondStatus.bonded) p) = false := by
        simp [hpunb]
      have hBpb : ((fun u : Validator => u.status == BondStatus.bonded)
          (bondVal s.height p)) = true := by simp [bondVal_status]
      have hPpv : ((fun u : Validator => decide (0 < u.tokens)) p) = true := by
        simpa using hppos
      have hPpb : ((fun u : Validator => decide (0 < u.tokens)) (bondVal s.height p))
          = true := by
        show decide (0 < (bondVal s.height p).tokens) = true
        rw [bondVal_tokens]
        simpa using hppos
      simp only [hBpv, hBpb, hPpv, hPpb, if_true, Bool.false_eq_true, if_false,
        add_zero] at hBp hPp
      have hsurpP := pos_surplus (othersOf s vIn.owner)
        (distinctOwners_filter _ _ hdist) p hpoth hppos
        (by rw [hpunb]; intro hcon; cases hcon)
        (fun u hu => hbp u (mem_othersOf s vIn.owner u hu).1)
      by_cases hPt : 0 < vIn.tokens
      · have hdec : decide (0 < vIn.tokens) = true := by simpa using hPt
        rw [hdec] at hP
        simp only [if_true] at hP
        omega
      · have hdec : decide (0 < vIn.tokens) = false := by simpa using hPt
        rw [hdec] at hP
        simp only [Bool.false_eq_true, if_false, add_zero] at hP
        omega
    · exact pairwise_emitFor _ _ _ _ (pairwise_emitFor _ _ _ _ hpend)
  | none =>
    have hcase : unbondCase s vIn = unbondSolo s vIn := by
      rw [unbondCase, if_pos hguard, hp]
    rw [hcase]
    have himpO : ∀ u ∈ othersOf s vIn.owner, 0 < u.tokens → u.status = .bonded := by
      intro u hu hupos
      have hnone := promoteCandidate_none _ hp u hu
      cases hst : u.status with
      | bonded => rfl
      | unbonded => exact absurd ⟨hst, hupos⟩ hnone
      | revoked => exact absurd hst (hnr u (mem_othersOf s vIn.owner u hu).1)
    refine ⟨?_, ?_, ?_, ?_, ?_, ?_⟩
    · exact hdistStore
    · intro v hv
      rcases hmemStore v hv with h | h
      · exact hnr v h
      · rw [h, unbondVal_status]
        intro hcon
        cases hcon
    · intro v hv
      rcases hmemStore v hv with h | h
      · exact hnn v h
      · rw [h, unbondVal_tokens, normVal_tokens]
        exact ht0
    · intro v hv
      rcases hmemStore v hv with h | h
      · exact hbp v h
      · intro hcon
        rw [h, unbondVal_status] at hcon
        cases hcon
    · show bondedCount _ = min _ (posCount _)
      have hval : (unbondSolo s vIn).validators
          = storeSet s.validators (unbondVal (normVal s vIn)) := rfl
      have hmax : (unbondSolo s vIn).maxValidators = s.maxValidators := rfl
      rw [bondedCount_countP, posCount, hval, hmax]
      have hrev : (othersOf s vIn.owner).countP (fun u => decide (0 < u.tokens))
          ≤ (othersOf s vIn.owner).countP (fun u => u.status == .bonded) := by
        apply List.countP_mono_left
        intro u hu h
        have := himpO u hu (by simpa using h)
        simpa using this
      by_cases hPt : 0 < vIn.tokens
      · exfalso
        have hm0 : 0 < s.maxValidators := by omega
        obtain ⟨hlen, c, hc, hcle⟩ := belongs_false_elim s vIn hbel hkeepne hPt hm0
        rw [length_powerIndexOf] at hlen
        have hagree := index_length_eq_bonded (othersOf s vIn.owner)
          (fun u hu => hnn u (mem_othersOf s vIn.owner u hu).1)
          (fun u hu => hnr u (mem_othersOf s vIn.owner u hu).1) himpO
        omega
      · have hdec : decide (0 < vIn.tokens) = false := by simpa using hPt
        rw [hdec] at hP
        simp only [Bool.false_eq_true, if_false, add_zero] at hP
        omega
    · exact pairwise_emitFor _ _ _ _ hpend

/-- The well-formedness invariant survives any `UpdateValidator` call with a
non-revoked, nonnegative-power incoming record. -/
theorem inv_updateValidator (s : State) (vIn : Validator)
    (hInv : StoreInv s) (hst : vIn.status ≠ .revoked) (ht0 : 0 ≤ vIn.tokens) :
    StoreInv (updateValidator s vIn) := by
  rw [updateValidator]
  by_cases hpb : priorBonded s vIn = true
  · rw [if_pos hpb]
    obtain ⟨w, hw, hwb⟩ := priorBonded_true_elim s vIn hpb
    by_cases hbel : belongs s vIn = true
    · rw [if_pos hbel]
      exact inv_stayBondedCase s vIn w hInv hw hwb hbel
    · rw [if_neg hbel]
      exact inv_unbondCase s vIn w hInv hw hwb (by simpa using hbel) ht0
  · rw [if_neg hpb]
    have hpb2 : priorBonded s vIn = false := by simpa using hpb
    by_cases hbel : belongs s vIn = true
    · rw [if_pos hbel]
      exact inv_bondCase s vIn hInv hpb2 hbel
    · rw [if_neg hbel]
      exact inv_keepCase s vIn hInv hpb2 (by simpa using hbel) ht0 hst

/-- The invariant survives one message. -/
theorem inv_applyMsg (s : State) (m : Msg) (hInv : StoreInv s) : StoreInv (applyMsg s m) := by
  rw [applyMsg]
  by_cases hm : 0 ≤ m.tokens
  · rw [if_pos hm, msgSetTokens]
    cases hg : getValidator s m.owner with
    | some u =>
      simp only [hg]
      apply inv_updateValidator _ _ hInv
      · show ({ u with tokens := m.tokens } : Validator).status ≠ .revoked
        show u.status ≠ .revoked
        obtain ⟨_, hnr, _, _, _, _⟩ := hInv
        exact hnr u (List.mem_of_find?_eq_some hg)
      · exact hm
    | none =>
      simp only [hg]
      apply inv_updateValidator _ _ hInv
      · intro hcon
        cases hcon
      · exact hm
  · rw [if_neg hm]
    exact hInv

/-- The genesis state is well-formed. -/
theorem inv_initialState (maxV : Nat) : StoreInv (initialState maxV) := by
  refine ⟨List.Pairwise.nil, ?_, ?_, ?_, ?_, List.Pairwise.nil⟩
  · intro v hv
    simp [initialState] at hv
  · intro v hv
    simp [initialState] at hv
  · intro v hv
    simp [initialState] at hv
  · show bondedCount (initialState maxV) = min maxV (posCount (initialState maxV))
    rw [bondedCount_countP, posCount]
    simp [initialState]

/-- The invariant survives any block of messages. -/
theorem inv_applyMsgs (s : State) (ms : List Msg) (hInv : StoreInv s) :
    StoreInv (applyMsgs s ms) := by
  induction ms generalizing s with
  | nil => exact hInv
  | cons m ms ih => exact ih (applyMsg s m) (inv_applyMsg s m hInv)

/-- `UpdateValidator` never changes the `MaxValidators` parameter. -/
theorem maxValidators_updateValidator (s : State) (vIn : Validator) :
    (updateValidator s vIn).maxValidators = s.maxValidators := by
  rw [updateValidator]
  split
  · split
    · rfl
    · rw [unbondCase]
      split <;> rfl
  · split
    · rw [bondCase]
      split <;> rfl
    · rfl

/-- A message never changes the `MaxValidators` parameter. -/
theorem maxValidators_applyMsg (s : State) (m : Msg) :
    (applyMsg s m).maxValidators = s.maxValidators := by
  rw [applyMsg]
  by_cases hm : 0 ≤ m.tokens
  · rw [if_pos hm, msgSetTokens]
    exact maxValidators_updateValidator _ _
  · rw [if_neg hm]

/-- A block of messages never changes the `MaxValidators` parameter. -/
theorem maxValidators_applyMsgs (s : State) (ms : List Msg) :
    (applyMsgs s ms).maxValidators = s.maxValidators := by
  induction ms generalizing s with
  | nil => rfl
  | cons m ms ih =>
    show (applyMsgs (applyMsg s m) ms).maxValidators = _
    rw [ih (applyMsg s m), maxValidators_applyMsg]

/-- C8: After every message, the number of bonded validators equals
`min(MaxValidators, number of validators with power > 0)`; in particular the
bonded set never exceeds `MaxValidators` and a zero-power validator is never
bonded. -/
theorem C8_bonded_set_size (maxV : Nat) (ms : List Msg) :
    bondedCount (applyMsgs (initialState maxV) ms)
        = min maxV (posCount (applyMsgs (initialState maxV) ms)) ∧
      bondedCount (applyMsgs (initialState maxV) ms) ≤ maxV ∧
      ∀ v ∈ (applyMsgs (initialState maxV) ms).validators,
        v.status = .bonded → 0 < v.tokens := by
  have hInv := inv_applyMsgs (initialState maxV) ms (inv_initialState maxV)
  obtain ⟨_, _, _, hbp, hcount, _⟩ := hInv
  have hmax : (applyMsgs (initialState maxV) ms).maxValidators = maxV :=
    maxValidators_applyMsgs (initialState maxV) ms
  rw [hmax] at hcount
  exact ⟨hcount, by omega, hbp⟩

/-! ### Inflation controller lemmas -/

/-- The feedback change vanishes at the bonded-ratio goal. -/
theorem inflationChange_at_goal (p : Pool) (h : p.bondedRatio = goalBonded) :
    inflationChange p = 0 := by
  rw [inflationChange, h]
  have hg : goalBonded / goalBonded = 1 := by
    rw [goalBonded]
    norm_num
  rw [hg]
  have : ((1 : ℚ) - 1) * inflationRateChange / hoursPerYear = 0 := by ring
  rw [this, roundPrec]
  norm_num

/-- `NextInflation` as a two-sided clamp. -/
theorem nextInflation_eq_clamp (p : Pool) :
    nextInflation p
      = max inflationMin (min inflationMax (p.inflation + inflationChange p)) := by
  rw [nextInflation]
  have hmm : inflationMin ≤ inflationMax := by
    rw [inflationMin, inflationMax]
    norm_num
  by_cases h1 : inflationMax < p.inflation + inflationChange p
  · rw [if_pos h1]
    have hmin : min inflationMax (p.inflation + inflationChange p) = inflationMax :=
      min_eq_left (le_of_lt h1)
    rw [hmin, max_eq_right hmm]
  · rw [if_neg h1]
    have hmin : min inflationMax (p.inflation + inflationChange p)
        = p.inflation + inflationChange p := min_eq_right (le_of_not_lt h1)
    rw [hmin]
    by_cases h2 : p.inflation + inflationChange p < inflationMin
    · rw [if_pos h2, max_eq_left (le_of_lt h2)]
    · rw [if_neg h2, max_eq_right (le_of_not_lt h2)]

/-- C4: For every pool state, `NextInflation` returns
`Pool.Inflation + change` clamped to `[InflationMin, InflationMax]`, where
`change = (1 − BondedRatio / GoalBonded) × InflationRateChange / HoursPerYear`
rounded to `precision`; when `BondedRatio` equals `GoalBonded` the change is
zero and (the inflation being within bounds) `NextInflation` returns
`Pool.Inflation` unchanged — in particular for
`BondedTokens = 67`, `LooseUnbondedTokens = 33`, `Inflation = 15%`. -/
theorem C4_next_inflation_formula :
    (∀ p : Pool, nextInflation p
        = max inflationMin (min inflationMax (p.inflation + inflationChange p))) ∧
      (∀ p : Pool, p.bondedRatio = goalBonded →
        inflationMin ≤ p.inflation → p.inflation ≤ inflationMax →
        nextInflation p = p.inflation) ∧
      nextInflation balancedPool = 15 / 100 := by
  have hbal : ∀ p : Pool, p.bondedRatio = goalBonded →
      inflationMin ≤ p.inflation → p.inflation ≤ inflationMax →
      nextInflation p = p.inflation := by
    intro p h hlo hhi
    rw [nextInflation_eq_clamp, inflationChange_at_goal p h, add_zero]
    rw [min_eq_right hhi, max_eq_right hlo]
  refine ⟨nextInflation_eq_clamp, hbal, ?_⟩
  have hres : nextInflation balancedPool = balancedPool.inflation := by
    apply hbal
    · rw [Pool.bondedRatio]
      have hsup : balancedPool.tokenSupply = 100 := rfl
      have hb : balancedPool.bondedTokens = 67 := rfl
      rw [hsup, hb, if_neg (by norm_num), goalBonded]
      norm_num
    · rw [balancedPool, inflationMin]
      norm_num
    · rw [balancedPool, inflationMax]
      norm_num
  rw [hres, balancedPool]

/-- C4 witness: the formula and the balance case evaluated concretely. -/
theorem C4_next_inflation_formula_witness :
    nextInflation balancedPool = 15 / 100 :=
  C4_next_inflation_formula.2.2

/-- C5: Values of `NextInflation` stay within `[0.07, 0.20]`; at the floor
the applied net change is nonnegative, at the ceiling it is nonpositive. -/
theorem C5_inflation_bounds (p : Pool)
    (hlo : inflationMin ≤ p.inflation) (hhi : p.inflation ≤ inflationMax) :
    (inflationMin ≤ nextInflation p ∧ nextInflation p ≤ inflationMax) ∧
      (p.inflation = inflationMin → 0 ≤ nextInflation p - p.inflation) ∧
      (p.inflation = inflationMax → nextInflation p - p.inflation ≤ 0) := by
  have hmm : inflationMin ≤ inflationMax := by
    rw [inflationMin, inflationMax]
    norm_num
  have hclamp := nextInflation_eq_clamp p
  have hge : inflationMin ≤ nextInflation p := by
    rw [hclamp]
    exact le_max_left _ _
  have hle : nextInflation p ≤ inflationMax := by
    rw [hclamp]
    apply max_le hmm
    exact min_le_left _ _
  refine ⟨⟨hge, hle⟩, ?_, ?_⟩
  · intro hfloor
    rw [hfloor]
    linarith [hge]
  · intro hceil
    rw [hceil]
    linarith [hle]

/-- C5 witness: the bounds at a concrete balanced pool. -/
theorem C5_inflation_bounds_witness :
    (inflationMin ≤ balancedPool.inflation ∧ balancedPool.inflation ≤ inflationMax) ∧
      (inflationMin ≤ nextInflation balancedPool ∧
        nextInflation balancedPool ≤ inflationMax) := by
  have h1 : inflationMin ≤ balancedPool.inflation := by
    rw [balancedPool, inflationMin]
    norm_num
  have h2 : balancedPool.inflation ≤ inflationMax := by
    rw [balancedPool, inflationMax]
    norm_num
  have h3 := C5_inflation_bounds balancedPool h1 h2
  exact ⟨⟨h1, h2⟩, h3.1⟩

/-- C6: Each `ProcessProvisions` call increases `BondedTokens` and
`TokenSupply` by exactly `floor(NextInflation × TokenSupply / HoursPerYear)`,
updates `Pool.Inflation` to `NextInflation`, and leaves the unbonded tokens
and `BondedShares` unchanged; after `N` hourly invocations `TokenSupply` has
grown by exactly the sum of the emitted provisions while the unbonded tokens
and `BondedShares` are unchanged. -/
theorem C6_process_provisions :
    (∀ p : Pool,
      (processProvisions p).bondedTokens
          = p.bondedTokens + ⌊nextInflation p * (p.tokenSupply : ℚ) / hoursPerYear⌋ ∧
      (processProvisions p).tokenSupply
          = p.tokenSupply + ⌊nextInflation p * (p.tokenSupply : ℚ) / hoursPerYear⌋ ∧
      (processProvisions p).inflation = nextInflation p ∧
      (processProvisions p).looseUnbondedTokens = p.looseUnbondedTokens ∧
      (processProvisions p).bondedShares = p.bondedShares) ∧
    ∀ (n : Nat) (p : Pool),
      (processN n p).tokenSupply = p.tokenSupply + provisionsSum n p ∧
      (processN n p).looseUnbondedTokens = p.looseUnbondedTokens ∧
      (processN n p).bondedShares = p.bondedShares := by
  have hone : ∀ p : Pool,
      (processProvisions p).bondedTokens = p.bondedTokens + provisionsOf p ∧
      (processProvisions p).tokenSupply = p.tokenSupply + provisionsOf p ∧
      (processProvisions p).inflation = nextInflation p ∧
      (processProvisions p).looseUnbondedTokens = p.looseUnbondedTokens ∧
      (processProvisions p).bondedShares = p.bondedShares := by
    intro p
    refine ⟨rfl, ?_, rfl, rfl, rfl⟩
    show (processProvisions p).bondedTokens + (processProvisions p).looseUnbondedTokens = _
    show (p.bondedTokens + provisionsOf p) + p.looseUnbondedTokens = _
    rw [Pool.tokenSupply]
    ring
  constructor
  · intro p
    exact hone p
  · intro n
    induction n with
    | zero =>
      intro p
      refine ⟨?_, rfl, rfl⟩
      show p.tokenSupply = p.tokenSupply + 0
      ring
    | succ k ih =>
      intro p
      obtain ⟨ht, hl, hs⟩ := ih (processProvisions p)
      refine ⟨?_, ?_, ?_⟩
      · show (processN k (processProvisions p)).tokenSupply = _
        rw [ht, (hone p).2.1]
        show p.tokenSupply + provisionsOf p + provisionsSum k (processProvisions p)
            = p.tokenSupply + (provisionsOf p + provisionsSum k (processProvisions p))
        ring
      · show (processN k (processProvisions p)).looseUnbondedTokens = _
        rw [hl, (hone p).2.2.2.1]
      · show (processN k (processProvisions p)).bondedShares = _
        rw [hs, (hone p).2.2.2.2]

/-! ### REST handler lemmas -/

/-- A successful build returns exactly the request messages, all carrying
the authenticated address. -/
theorem buildMessages_some (addr : Nat) (req : EditDelegationsBody) (msgs : List SdkMsg)
    (h : buildMessages addr req = some msgs) :
    msgs = requestMsgs req ∧ ∀ m ∈ msgs, m.delegatorAddr = addr := by
  rw [buildMessages] at h
  by_cases hall : (requestMsgs req).all (fun m => m.delegatorAddr == addr) = true
  · rw [if_pos hall] at h
    have hmsgs := Option.some.inj h
    subst hmsgs
    rw [List.all_eq_true] at hall
    exact ⟨rfl, fun m hm => by simpa using hall m hm⟩
  · rw [if_neg hall] at h
    cases h

/-- The build fails exactly on a foreign delegator address. -/
theorem buildMessages_none_iff (addr : Nat) (req : EditDelegationsBody) :
    buildMessages addr req = none
      ↔ ∃ m ∈ requestMsgs req, m.delegatorAddr ≠ addr := by
  rw [buildMessages]
  constructor
  · intro h
    by_cases hall : (requestMsgs req).all (fun m => m.delegatorAddr == addr) = true
    · rw [if_pos hall] at h
      cases h
    · rw [List.all_eq_true] at hall
      push_neg at hall
      obtain ⟨m, hm, hne⟩ := hall
      exact ⟨m, hm, by simpa using hne⟩
  · intro ⟨m, hm, hne⟩
    rw [if_neg]
    intro hall
    rw [List.all_eq_true] at hall
    exact hne (by simpa using hall m hm)

/-- A successful signing loop yields one transaction per message. -/
theorem signAll_length (env : RestEnv) (name pw : String) (seq : ℤ)
    (msgs : List SdkMsg) (txs : List (List Nat))
    (h : signAll env name pw seq msgs = .ok txs) : txs.length = msgs.length := by
  induction msgs generalizing seq txs with
  | nil =>
    rw [signAll] at h
    cases h
    rfl
  | cons m ms ih =>
    rw [signAll] at h
    cases hs : env.signAndBuild name pw seq m with
    | error e => rw [hs] at h; cases h
    | ok tx =>
      rw [hs] at h
      cases hrest : signAll env name pw (seq + 1) ms with
      | error e => rw [hrest] at h; cases h
      | ok rest =>
        rw [hrest] at h
        cases h
        simp [ih (seq + 1) rest hrest]

/-- A broadcast loop with no failures sends everything in order. -/
theorem broadcastAll_ok (env : RestEnv) (txs : List (List Nat))
    (h : ∀ tx ∈ txs, ∃ r, env.broadcastTx tx = .ok r) :
    broadcastAll env txs = (txs, none) := by
  induction txs with
  | nil => rfl
  | cons tx txs ih =>
    rw [broadcastAll]
    obtain ⟨r, hr⟩ := h tx (List.mem_cons_self tx txs)
    rw [hr]
    rw [ih (fun t ht => h t (List.mem_cons_of_mem tx ht))]

/-- A broadcast loop failing first at index `i` leaves exactly the first `i`
transactions sent. -/
theorem broadcastAll_fail (env : RestEnv) (txs : List (List Nat)) (i : Nat) (e : String)
    (hlen : i < txs.length)
    (hok : ∀ j, (hj : j < i) → ∃ r,
      env.broadcastTx (txs.get ⟨j, lt_trans hj hlen⟩) = .ok r)
    (herr : env.broadcastTx (txs.get ⟨i, hlen⟩) = .error e) :
    broadcastAll env txs = (txs.take i, some e) := by
  induction txs generalizing i with
  | nil => simp at hlen
  | cons tx txs ih =>
    cases i with
    | zero =>
      rw [broadcastAll]
      have : env.broadcastTx tx = .error e := herr
      rw [this]
      rfl
    | succ k =>
      have h0 : ∃ r, env.broadcastTx tx = .ok r := by
        have := hok 0 (Nat.succ_pos k)
        exact this
      obtain ⟨r, hr⟩ := h0
      rw [broadcastAll, hr]
      have hlen2 : k < txs.length := Nat.lt_of_succ_lt_succ hlen
      have hok2 : ∀ j, (hj : j < k) → ∃ r2,
          env.broadcastTx (txs.get ⟨j, lt_trans hj hlen2⟩) = .ok r2 := by
        intro j hj
        have := hok (j + 1) (Nat.succ_lt_succ hj)
        exact this
      have herr2 : env.broadcastTx (txs.get ⟨k, hlen2⟩) = .error e := herr
      rw [ih k hlen2 hok2 herr2]
      rfl

/-- C9: The edit-delegations handler signs each message of the request as a
separate transaction and broadcasts them in list order; when every broadcast
succeeds it reports 200 having sent them all, and when the `i`-th broadcast
fails it stops, returns HTTP 500, and the transactions before the `i`-th
remain broadcast — mid-list failure leaves partial effects that are not
rolled back. -/
theorem C9_partial_broadcast (env : RestEnv) (req : EditDelegationsBody)
    (addr : Nat) (msgs : List SdkMsg) (txs : List (List Nat))
    (hkb : env.kbGet req.localAccountName = .ok addr)
    (hbuild : buildMessages addr req = some msgs)
    (hsign : signAll env req.localAccountName req.password req.sequence msgs = .ok txs) :
    msgs = requestMsgs req ∧ txs.length = msgs.length ∧
      ((∀ tx ∈ txs, ∃ r, env.broadcastTx tx = .ok r) →
        editDelegationsHandler env req
          = { status := 200, body := "", broadcasts := txs }) ∧
      (∀ (i : Nat) (e : String) (hlen : i < txs.length),
        (∀ j, (hj : j < i) → ∃ r,
          env.broadcastTx (txs.get ⟨j, lt_trans hj hlen⟩) = .ok r) →
        env.broadcastTx (txs.get ⟨i, hlen⟩) = .error e →
        (editDelegationsHandler env req).status = 500 ∧
          (editDelegationsHandler env req).broadcasts = txs.take i) := by
  refine ⟨(buildMessages_some addr req msgs hbuild).1,
    signAll_length env _ _ _ msgs txs hsign, ?_, ?_⟩
  · intro hall
    rw [editDelegationsHandler]
    simp only [hkb, hbuild, hsign, broadcastAll_ok env txs hall]
  · intro i e hlen hok herr
    rw [editDelegationsHandler]
    simp only [hkb, hbuild, hsign, broadcastAll_fail env txs i e hlen hok herr]
    exact ⟨trivial, trivial⟩

/-- C10: If any message of the body carries a delegator address different
from the authenticated account's, the handler responds 401 `"Must use own
delegator address"` and broadcasts nothing; consequently every transaction
the handler does broadcast comes from a request whose messages all carry the
authenticated address. -/
theorem C10_own_address_check (env : RestEnv) (req : EditDelegationsBody) (addr : Nat)
    (hkb : env.kbGet req.localAccountName = .ok addr) :
    ((∃ m ∈ requestMsgs req, m.delegatorAddr ≠ addr) →
      editDelegationsHandler env req
        = { status := 401, body := "Must use own delegator address", broadcasts := [] }) ∧
      ((editDelegationsHandler env req).broadcasts ≠ [] →
        ∀ m ∈ requestMsgs req, m.delegatorAddr = addr) := by
  constructor
  · intro hmis
    have hnone : buildMessages addr req = none := (buildMessages_none_iff addr req).mpr hmis
    rw [editDelegationsHandler]
    simp only [hkb, hnone]
  · intro hne
    cases hb : buildMessages addr req with
    | none =>
      exfalso
      apply hne
      rw [editDelegationsHandler]
      simp only [hkb, hb]
    | some msgs =>
      obtain ⟨hmsgs, hall⟩ := buildMessages_some addr req msgs hb
      intro m hm
      exact hall m (hmsgs ▸ hm)

/-- Two validator records with all fields equal are equal. -/
theorem Validator.extEq (a b : Validator)
    (h1 : a.owner = b.owner) (h2 : a.pubKey = b.pubKey) (h3 : a.status = b.status)
    (h4 : a.tokens = b.tokens) (h5 : a.bondHeight = b.bondHeight) (h6 : a.counter = b.counter) :
    a = b := by
  cases a
  cases b
  simp_all

/-- Replacing the record of an owner no element carries is the identity. -/
theorem map_replace_absent (l : List Validator) (v : Validator)
    (h : ∀ u ∈ l, u.owner ≠ v.owner) :
    l.map (fun u => if u.owner == v.owner then v else u) = l := by
  induction l with
  | nil => rfl
  | cons a l ih =>
    rw [List.map_cons, if_neg (by simp [h a (List.mem_cons_self a l)]),
      ih (fun u hu => h u (List.mem_cons_of_mem a hu))]

/-- Replacing a stored record by itself is the identity. -/
theorem map_replace_distinct (l : List Validator) (v : Validator)
    (hd : distinctOwners l)
    (h : l.find? (fun w => w.owner == v.owner) = some v) :
    l.map (fun u => if u.owner == v.owner then v else u) = l := by
  induction l with
  | nil => rfl
  | cons a l ih =>
    rw [distinctOwners, List.pairwise_cons] at hd
    by_cases ha : a.owner = v.owner
    · have hav : a = v := by
        rw [find?_cons_pos (fun w : Validator => w.owner == v.owner) a l (by simp [ha])] at h
        exact Option.some.inj h
      rw [List.map_cons, if_pos (by simp [ha]),
        map_replace_absent l v (fun u hu => by rw [← ha]; exact Ne.symm (hd.1 u hu)), hav]
    · rw [find?_cons_neg (fun w : Validator => w.owner == v.owner) a l (by simp [ha])] at h
      rw [List.map_cons, if_neg (by simp [ha]),
        ih (by rw [distinctOwners]; exact hd.2) h]

/-- Writing back the very record that is stored is a no-op. -/
theorem storeSet_eq_self (l : List Validator) (v : Validator)
    (hd : distinctOwners l)
    (h : l.find? (fun w => w.owner == v.owner) = some v) :
    storeSet l v = l := by
  rw [storeSet, if_pos (any_of_find? _ l v h)]
  exact map_replace_distinct l v hd h

/-- After a `storeSet`, looking up the written owner finds the new record. -/
theorem storeSet_find_self_any (l : List Validator) (r : Validator) (o : Nat)
    (hro : r.owner = o) :
    (storeSet l r).find? (fun u => u.owner == o) = some r := by
  cases h : l.find? (fun u => u.owner == o) with
  | some v0 =>
    have h0 : l.find? (fun u => u.owner == r.owner) = some v0 := by
      rw [hro]
      exact h
    have h1 := find?_storeSet_self l r v0 h0
    simpa only [hro] using h1
  | none =>
    have h0 : l.find? (fun u => u.owner == r.owner) = none := by
      rw [hro]
      exact h
    have h1 := find?_storeSet_absent l r h0
    simpa only [hro] using h1

/-- Filtering out the written owner hides a `storeSet`, key form. -/
theorem storeSet_filter_ne (l : List Validator) (r : Validator) (o : Nat)
    (hro : r.owner = o) :
    (storeSet l r).filter (fun u => u.owner != o) = l.filter (fun u => u.owner != o) := by
  have h := filter_ne_storeSet l r
  rw [hro] at h
  exact h

/-- `emitFor` with its let-bindings resolved. -/
theorem emitFor_eq_def (oldL newL : List Validator) (o : Nat) (m : List (Nat × Nat × ℤ)) :
    emitFor oldL newL o m
      = (if visibleAt newL o = visibleAt oldL o then m
         else match visibleAt newL o, visibleAt oldL o with
           | some (pk, p), _ => setPending m o pk p
           | none, some (pk, _) => setPending m o pk 0
           | none, none => m) := rfl

/-- `emitFor` elides the entry when the consensus-visible pair is unchanged. -/
theorem emitFor_visible_eq (oldL newL : List Validator) (o : Nat) (m : List (Nat × Nat × ℤ))
    (h : visibleAt newL o = visibleAt oldL o) :
    emitFor oldL newL o m = m := by
  rw [emitFor_eq_def, if_pos h]

/-- `emitFor` either leaves the map alone or writes one entry at its key. -/
theorem emitFor_cases (oldL newL : List Validator) (o : Nat) (m : List (Nat × Nat × ℤ)) :
    emitFor oldL newL o m = m
      ∨ ∃ pk p, emitFor oldL newL o m = setPending m o pk p := by
  rw [emitFor_eq_def]
  by_cases h : visibleAt newL o = visibleAt oldL o
  · rw [if_pos h]
    exact Or.inl rfl
  · rw [if_neg h]
    cases ha : visibleAt newL o with
    | some pr =>
      obtain ⟨pk, p⟩ := pr
      exact Or.inr ⟨pk, p, rfl⟩
    | none =>
      cases hb : visibleAt oldL o with
      | some pr =>
        obtain ⟨pk, p⟩ := pr
        exact Or.inr ⟨pk, 0, rfl⟩
      | none => exact Or.inl rfl

/-- The entry count at `emitFor`'s own key grows to at most one. -/
theorem countKey_emitFor_le (oldL newL : List Validator) (o : Nat)
    (m : List (Nat × Nat × ℤ)) :
    countKey (emitFor oldL newL o m) o ≤ max 1 (countKey m o) := by
  rcases emitFor_cases oldL newL o m with h | ⟨pk, p, h⟩
  · rw [h]
    exact le_max_right _ _
  · rw [h, countKey_setPending_self]
    exact le_max_left _ _

/-- The entry count at another key is unchanged by `emitFor`. -/
theorem countKey_emitFor_other (oldL newL : List Validator) (o o2 : Nat)
    (m : List (Nat × Nat × ℤ)) (hne : o2 ≠ o) :
    countKey (emitFor oldL newL o m) o2 = countKey m o2 := by
  rcases emitFor_cases oldL newL o m with h | ⟨pk, p, h⟩
  · rw [h]
  · rw [h, countKey_setPending_other m o pk p o2 hne]

/-- An owner-targeted adjustment commutes with filtering out another owner. -/
theorem filter_adjust_comm (l : List Validator) (o : Nat) (f : Validator → Validator)
    (hf : ∀ u : Validator, u.owner = o → (f u).owner = o) (o2 : Nat) :
    (adjust l o f).filter (fun u => u.owner != o2)
      = adjust (l.filter (fun u => u.owner != o2)) o f := by
  induction l with
  | nil => rfl
  | cons a l ih =>
    rw [adjust_cons]
    by_cases ha : a.owner = o
    · rw [if_pos (by simp [ha]), List.filter_cons, List.filter_cons]
      have hfa : (f a).owner = a.owner := by rw [hf a ha, ha]
      by_cases h2 : a.owner ≠ o2
      · rw [if_pos (by simp [hfa, h2]), if_pos (by simp [h2]), adjust_cons,
          if_pos (by simp [ha]), ih]
      · have h2' : a.owner = o2 := not_not.mp h2
        rw [if_neg (by simp [hfa, h2']), if_neg (by simp [h2']), ih]
    · rw [if_neg (by simp [ha]), List.filter_cons, List.filter_cons]
      by_cases h2 : a.owner ≠ o2
      · rw [if_pos (by simp [h2]), if_pos (by simp [h2]),
          adjust_cons, if_neg (by simp [ha]), ih]
      · have h2' : a.owner = o2 := not_not.mp h2
        rw [if_neg (by simp [h2']), if_neg (by simp [h2']), ih]

/-- Member form of the index-profile preservation under adjustment. -/
theorem tokens_filter_adjust_mem (l : List Validator) (o : Nat) (f : Validator → Validator)
    (hf : ∀ u ∈ l, u.owner = o →
      (f u).tokens = u.tokens ∧ inPowerIndex (f u) = inPowerIndex u) :
    ((adjust l o f).filter inPowerIndex).map (fun u => u.tokens)
      = (l.filter inPowerIndex).map (fun u => u.tokens) := by
  induction l with
  | nil => rfl
  | cons a l ih =>
    have hftail : ∀ u ∈ l, u.owner = o →
        (f u).tokens = u.tokens ∧ inPowerIndex (f u) = inPowerIndex u :=
      fun u hu ho => hf u (List.mem_cons_of_mem a hu) ho
    rw [adjust_cons]
    by_cases ha : a.owner = o
    · rw [if_pos (by simp [ha]), List.filter_cons, List.filter_cons]
      rcases hf a (List.mem_cons_self a l) ha with ⟨ht, hidx⟩
      by_cases hL : inPowerIndex a = true
      · rw [if_pos (by rw [hidx]; exact hL), if_pos hL, List.map_cons, List.map_cons,
          ih hftail, ht]
      · have hL2 : inPowerIndex a = false := by simpa using hL
        rw [if_neg (by simp [hidx, hL2]), if_neg (by simp [hL2]), ih hftail]
    · rw [if_neg (by simp [ha]), List.filter_cons, List.filter_cons]
      by_cases hL : inPowerIndex a = true
      · rw [if_pos hL, if_pos hL, List.map_cons, List.map_cons, ih hftail]
      · have hL2 : inPowerIndex a = false := by simpa using hL
        rw [if_neg (by simp [hL2]), if_neg (by simp [hL2]), ih hftail]

/-- Member form of the sorted-index token-profile preservation. -/
theorem tokens_powerIndexOf_adjust_mem (l : List Validator) (o : Nat)
    (f : Validator → Validator)
    (hf : ∀ u ∈ l, u.owner = o →
      (f u).tokens = u.tokens ∧ inPowerIndex (f u) = inPowerIndex u) :
    (powerIndexOf (adjust l o f)).map (fun u => u.tokens)
      = (powerIndexOf l).map (fun u => u.tokens) := by
  apply List.eq_of_perm_of_sorted _ (sorted_tokens_powerIndexOf _) (sorted_tokens_powerIndexOf _)
  have p1 := (perm_powerIndexOf (adjust l o f)).map (fun u => u.tokens)
  have p2 := (perm_powerIndexOf l).map (fun u => u.tokens)
  rw [tokens_filter_adjust_mem l o f hf] at p1
  exact p1.trans p2.symm

/-- A state whose stored record for the incoming validator already reflects
the call's outcome is a fixed point of `UpdateValidator`. -/
theorem updateValidator_fixed (t : State) (vIn w : Validator)
    (hd : distinctOwners t.validators)
    (holdt : oldOf t vIn = some w)
    (hwo : w.owner = vIn.owner) (hwp : w.pubKey = vIn.pubKey) (hwt : w.tokens = vIn.tokens)
    (hbnd : w.status = .bonded → belongs t vIn = true)
    (hubd : w.status = .unbonded → belongs t vIn = false) :
    updateValidator t vIn = t := by
  have hnorm : normVal t vIn
      = { vIn with counter := w.counter, bondHeight := w.bondHeight } := by
    rw [normVal, holdt]
  have hctr : nextCtr t vIn = t.intraTxCounter := by
    rw [nextCtr, holdt]
  have hfind : t.validators.find? (fun u => u.owner == vIn.owner) = some w := holdt
  cases hst : w.status with
  | bonded =>
    have hbel := hbnd hst
    have hpb : priorBonded t vIn = true := by
      simp [priorBonded, holdt, hst]
    have hwrec : setStatus .bonded (normVal t vIn) = w :=
      Validator.extEq _ _ (by rw [setStatus_owner, normVal_owner, hwo])
        (by rw [setStatus_pubKey, normVal_pubKey, hwp])
        (by rw [setStatus_status, hst])
        (by rw [setStatus_tokens, normVal_tokens, hwt])
        (by rw [hnorm]; rfl)
        (by rw [hnorm]; rfl)
    have hstore : storeSet t.validators (setStatus .bonded (normVal t vIn)) = t.validators := by
      rw [hwrec]
      exact storeSet_eq_self t.validators w hd (by rw [hwo]; exact hfind)
    rw [updateValidator, if_pos hpb, if_pos hbel, stayBondedCase, hstore,
      emitFor_visible_eq _ _ _ _ rfl, hctr]
  | unbonded =>
    have hbel := hubd hst
    have hpb : priorBonded t vIn = false := by
      simp [priorBonded, holdt, hst]
    have hkeept : keepOf t vIn = .unbonded := by
      rw [keepOf_present t vIn w holdt, hst]
    have hwrec : setStatus (if keepOf t vIn == .revoked then .revoked else .unbonded)
        (normVal t vIn) = w := by
      rw [hkeept]
      show setStatus .unbonded (normVal t vIn) = w
      exact Validator.extEq _ _ (by rw [setStatus_owner, normVal_owner, hwo])
        (by rw [setStatus_pubKey, normVal_pubKey, hwp])
        (by rw [setStatus_status, hst])
        (by rw [setStatus_tokens, normVal_tokens, hwt])
        (by rw [hnorm]; rfl)
        (by rw [hnorm]; rfl)
    have hstore : storeSet t.validators
        (setStatus (if keepOf t vIn == .revoked then .revoked else .unbonded)
          (normVal t vIn)) = t.validators := by
      rw [hwrec]
      exact storeSet_eq_self t.validators w hd (by rw [hwo]; exact hfind)
    rw [updateValidator, if_neg (by simp [hpb]), if_neg (by simp [hbel]), keepCase, hstore,
      emitFor_visible_eq _ _ _ _ rfl, hctr]
  | revoked =>
    have hpb : priorBonded t vIn = false := by
      simp [priorBonded, holdt, hst]
    have hkeept : keepOf t vIn = .revoked := by
      rw [keepOf_present t vIn w holdt, hst]
    have hbel : belongs t vIn = false := by
      rw [belongs, hkeept]
      simp
    have hwrec : setStatus (if keepOf t vIn == .revoked then .revoked else .unbonded)
        (normVal t vIn) = w := by
      rw [hkeept]
      show setStatus .revoked (normVal t vIn) = w
      exact Validator.extEq _ _ (by rw [setStatus_owner, normVal_owner, hwo])
        (by rw [setStatus_pubKey, normVal_pubKey, hwp])
        (by rw [setStatus_status, hst])
        (by rw [setStatus_tokens, normVal_tokens, hwt])
        (by rw [hnorm]; rfl)
        (by rw [hnorm]; rfl)
    have hstore : storeSet t.validators
        (setStatus (if keepOf t vIn == .revoked then .revoked else .unbonded)
          (normVal t vIn)) = t.validators := by
      rw [hwrec]
      exact storeSet_eq_self t.validators w hd (by rw [hwo]; exact hfind)
    rw [updateValidator, if_neg (by simp [hpb]), if_neg (by simp [hbel]), keepCase, hstore,
      emitFor_visible_eq _ _ _ _ rfl, hctr]

/-- The pending-update map after a call is the old map passed through
`emitFor` at the incoming validator's owner, possibly wrapped by one more
`emitFor` at a different owner (the displaced or promoted validator). -/
theorem updateValidator_pending_shape (s : State) (vIn : Validator) :
    (updateValidator s vIn).pendingUpdates
      = emitFor s.validators (updateValidator s vIn).validators vIn.owner s.pendingUpdates
    ∨ ∃ o2, o2 ≠ vIn.owner ∧
        (updateValidator s vIn).pendingUpdates
          = emitFor s.validators (updateValidator s vIn).validators o2
              (emitFor s.validators (updateValidator s vIn).validators vIn.owner
                s.pendingUpdates) := by
  rw [updateValidator]
  by_cases hpb : priorBonded s vIn = true
  · rw [if_pos hpb]
    by_cases hbel : belongs s vIn = true
    · rw [if_pos hbel]
      exact Or.inl rfl
    · rw [if_neg hbel, unbondCase]
      cases hpc : (if (bondedOthersOf s vIn).length < s.maxValidators
          then promoteCandidate (othersOf s vIn.owner) else none) with
      | none => exact Or.inl rfl
      | some p =>
        have hp : promoteCandidate (othersOf s vIn.owner) = some p := by
          by_cases hroom : (bondedOthersOf s vIn).length < s.maxValidators
          · rw [if_pos hroom] at hpc
            exact hpc
          · rw [if_neg hroom] at hpc
            cases hpc
        obtain ⟨hpmem, _, _⟩ := promoteCandidate_some _ p hp
        exact Or.inr ⟨p.owner, (mem_othersOf s vIn.owner p hpmem).2, rfl⟩
  · rw [if_neg hpb]
    by_cases hbel : belongs s vIn = true
    · rw [if_pos hbel, bondCase]
      cases hd : (if s.maxValidators ≤ (bondedOthersOf s vIn).length
          then cliffOf (bondedOthersOf s vIn) else none) with
      | none => exact Or.inl rfl
      | some d =>
        have hc : cliffOf (bondedOthersOf s vIn) = some d := by
          by_cases hfull : s.maxValidators ≤ (bondedOthersOf s vIn).length
          · rw [if_pos hfull] at hd
            exact hd
          · rw [if_neg hfull] at hd
            cases hd
        obtain ⟨_, hdne, _⟩ := displaced_facts s vIn d hc
        exact Or.inr ⟨d.owner, hdne, rfl⟩
    · rw [if_neg hbel]
      exact Or.inl rfl

/-- The transition key of the incoming validator is never the revoked
status, for a non-revoked input over an invariant-satisfying store. -/
theorem keepOf_not_revoked (s : State) (vIn : Validator)
    (hnr : ∀ v ∈ s.validators, v.status ≠ .revoked) (hst : vIn.status ≠ .revoked) :
    keepOf s vIn ≠ .revoked := by
  cases ho : oldOf s vIn with
  | some o =>
    rw [keepOf_present s vIn o ho]
    exact hnr o (List.mem_of_find?_eq_some ho)
  | none =>
    rw [keepOf_absent s vIn ho]
    exact hst

/-- A second `UpdateValidator` call with the same validator leaves the state
of the first call unchanged. -/
theorem updateValidator_idem_store (s : State) (vIn : Validator)
    (hInv : StoreInv s) (hst : vIn.status ≠ .revoked) (ht0 : 0 ≤ vIn.tokens) :
    updateValidator (updateValidator s vIn) vIn = updateValidator s vIn := by
  have hdist := hInv.1
  have hnr := hInv.2.1
  have hbp := hInv.2.2.2.1
  have hdist1 : distinctOwners (updateValidator s vIn).validators :=
    (inv_updateValidator s vIn hInv hst ht0).1
  have hkeepnr : keepOf s vIn ≠ .revoked := keepOf_not_revoked s vIn hnr hst
  have hdoth : distinctOwners (othersOf s vIn.owner) :=
    distinctOwners_filter s.validators _ hdist
  have hmax1 : (updateValidator s vIn).maxValidators = s.maxValidators :=
    maxValidators_updateValidator s vIn
  by_cases hpb : priorBonded s vIn = true
  · by_cases hbel : belongs s vIn = true
    · -- stay-bonded transition
      have hbd : belongsDecision s.maxValidators
          (powerIndexOf (othersOf s vIn.owner)) vIn.tokens = true := by
        have h := hbel
        rw [belongs, Bool.and_eq_true] at h
        exact h.2
      have hupd : updateValidator s vIn = stayBondedCase s vIn := by
        rw [updateValidator, if_pos hpb, if_pos hbel]
      have hwowner : (setStatus .bonded (normVal s vIn)).owner = vIn.owner := by
        rw [setStatus_owner, normVal_owner]
      have hold1 : oldOf (updateValidator s vIn) vIn
          = some (setStatus .bonded (normVal s vIn)) := by
        rw [hupd]
        show (storeSet s.validators (setStatus .bonded (normVal s vIn))).find?
          (fun u => u.owner == vIn.owner) = _
        exact storeSet_find_self_any _ _ _ hwowner
      have hoth1 : othersOf (updateValidator s vIn) vIn.owner = othersOf s vIn.owner := by
        rw [hupd]
        show (storeSet s.validators (setStatus .bonded (normVal s vIn))).filter
          (fun u => u.owner != vIn.owner) = s.validators.filter (fun u => u.owner != vIn.owner)
        exact storeSet_filter_ne _ _ _ hwowner
      have hbel1 : belongs (updateValidator s vIn) vIn = true := by
        rw [belongs, keepOf_present _ vIn _ hold1, setStatus_status, hoth1, hmax1, hbd]
        rfl
      exact updateValidator_fixed (updateValidator s vIn) vIn
        (setStatus .bonded (normVal s vIn)) hdist1 hold1
        hwowner
        (by rw [setStatus_pubKey, normVal_pubKey])
        (by rw [setStatus_tokens, normVal_tokens])
        (fun _ => hbel1)
        (fun hc => by rw [setStatus_status] at hc; cases hc)
    · -- unbond transition
      have hbelF : belongs s vIn = false := by simpa using hbel
      have hbdF : belongsDecision s.maxValidators
          (powerIndexOf (othersOf s vIn.owner)) vIn.tokens = false := by
        have h := hbelF
        rw [belongs] at h
        rcases Bool.and_eq_false_iff.mp h with h1 | h2
        · exfalso
          simp [hkeepnr] at h1
        · exact h2
      have hupd : updateValidator s vIn = unbondCase s vIn := by
        rw [updateValidator, if_pos hpb, if_neg hbel]
      have hwowner : (unbondVal (normVal s vIn)).owner = vIn.owner := by
        rw [unbondVal_owner, normVal_owner]
      cases hpc : (if (bondedOthersOf s vIn).length < s.maxValidators
          then promoteCandidate (othersOf s vIn.owner) else none) with
      | none =>
        have hupd2 : updateValidator s vIn = unbondSolo s vIn := by
          rw [hupd, unbondCase, hpc]
        have hold1 : oldOf (updateValidator s vIn) vIn
            = some (unbondVal (normVal s vIn)) := by
          rw [hupd2]
          show (storeSet s.validators (unbondVal (normVal s vIn))).find?
            (fun u => u.owner == vIn.owner) = _
          exact storeSet_find_self_any _ _ _ hwowner
        have hoth1 : othersOf (updateValidator s vIn) vIn.owner = othersOf s vIn.owner := by
          rw [hupd2]
          show (storeSet s.validators (unbondVal (normVal s vIn))).filter
            (fun u => u.owner != vIn.owner)
            = s.validators.filter (fun u => u.owner != vIn.owner)
          exact storeSet_filter_ne _ _ _ hwowner
        have hbel1 : belongs (updateValidator s vIn) vIn = false := by
          rw [belongs, keepOf_present _ vIn _ hold1, unbondVal_status, hoth1, hmax1, hbdF]
          rfl
        exact updateValidator_fixed (updateValidator s vIn) vIn
          (unbondVal (normVal s vIn)) hdist1 hold1
          hwowner
          (by rw [unbondVal_pubKey, normVal_pubKey])
          (by rw [unbondVal_tokens, normVal_tokens])
          (fun hc => by rw [unbondVal_status] at hc; cases hc)
          (fun _ => hbel1)
      | some p =>
        have hp : promoteCandidate (othersOf s vIn.owner) = some p := by
          by_cases hroom : (bondedOthersOf s vIn).length < s.maxValidators
          · rw [if_pos hroom] at hpc
            exact hpc
          · rw [if_neg hroom] at hpc
            cases hpc
        obtain ⟨hpmem, hpu, hppos⟩ := promoteCandidate_some _ p hp
        have hpne : p.owner ≠ vIn.owner := (mem_othersOf s vIn.owner p hpmem).2
        have hupd2 : updateValidator s vIn = unbondPromote s vIn p := by
          rw [hupd, unbondCase, hpc]
        have hold1 : oldOf (updateValidator s vIn) vIn
            = some (unbondVal (normVal s vIn)) := by
          rw [hupd2]
          show (adjust (unbondStore s vIn) p.owner (bondVal s.height)).find?
            (fun u => u.owner == vIn.owner) = _
          rw [find?_adjust_other _ p.owner vIn.owner (bondVal s.height)
            (fun u hu => by rw [bondVal_owner]; exact hu) (Ne.symm hpne)]
          rw [unbondStore]
          exact storeSet_find_self_any _ _ _ hwowner
        have hoth1 : othersOf (updateValidator s vIn) vIn.owner
            = adjust (othersOf s vIn.owner) p.owner (bondVal s.height) := by
          rw [hupd2]
          show (adjust (unbondStore s vIn) p.owner (bondVal s.height)).filter
            (fun u => u.owner != vIn.owner) = _
          rw [filter_adjust_comm _ p.owner _
            (fun u hu => by rw [bondVal_owner]; exact hu) vIn.owner]
          rw [show (unbondStore s vIn).filter (fun u => u.owner != vIn.owner)
              = othersOf s vIn.owner from storeSet_filter_ne _ _ _ hwowner]
        have hprof : (powerIndexOf (adjust (othersOf s vIn.owner) p.owner
              (bondVal s.height))).map (fun u => u.tokens)
            = (powerIndexOf (othersOf s vIn.owner)).map (fun u => u.tokens) := by
          apply tokens_powerIndexOf_adjust_mem
          intro u hu huo
          have hup : u = p := eq_of_mem_owner _ hdoth u p hu hpmem huo
          subst hup
          refine ⟨bondVal_tokens _ _, ?_⟩
          simp [inPowerIndex, bondVal_status, hpu, ne_of_gt hppos]
        have hbel1 : belongs (updateValidator s vIn) vIn = false := by
          rw [belongs, keepOf_present _ vIn _ hold1, unbondVal_status, hoth1, hmax1,
            belongsDecision_congr s.maxValidators _ _ vIn.tokens hprof, hbdF]
          rfl
        exact updateValidator_fixed (updateValidator s vIn) vIn
          (unbondVal (normVal s vIn)) hdist1 hold1
          hwowner
          (by rw [unbondVal_pubKey, normVal_pubKey])
          (by rw [unbondVal_tokens, normVal_tokens])
          (fun hc => by rw [unbondVal_status] at hc; cases hc)
          (fun _ => hbel1)
  · by_cases hbel : belongs s vIn = true
    · -- bond transition
      have hbd : belongsDecision s.maxValidators
          (powerIndexOf (othersOf s vIn.owner)) vIn.tokens = true := by
        have h := hbel
        rw [belongs, Bool.and_eq_true] at h
        exact h.2
      have hupd : updateValidator s vIn = bondCase s vIn := by
        rw [updateValidator, if_neg hpb, if_pos hbel]
      have hwowner : (bondVal s.height (normVal s vIn)).owner = vIn.owner := by
        rw [bondVal_owner, normVal_owner]
      cases hd : (if s.maxValidators ≤ (bondedOthersOf s vIn).length
          then cliffOf (bondedOthersOf s vIn) else none) with
      | none =>
        have hupd2 : updateValidator s vIn = bondSolo s vIn := by
          rw [hupd, bondCase, hd]
        have hold1 : oldOf (updateValidator s vIn) vIn
            = some (bondVal s.height (normVal s vIn)) := by
          rw [hupd2]
          show (storeSet s.validators (bondVal s.height (normVal s vIn))).find?
            (fun u => u.owner == vIn.owner) = _
          exact storeSet_find_self_any _ _ _ hwowner
        have hoth1 : othersOf (updateValidator s vIn) vIn.owner = othersOf s vIn.owner := by
          rw [hupd2]
          show (storeSet s.validators (bondVal s.height (normVal s vIn))).filter
            (fun u => u.owner != vIn.owner)
            = s.validators.filter (fun u => u.owner != vIn.owner)
          exact storeSet_filter_ne _ _ _ hwowner
        have hbel1 : belongs (updateValidator s vIn) vIn = true := by
          rw [belongs, keepOf_present _ vIn _ hold1, bondVal_status, hoth1, hmax1, hbd]
          rfl
        exact updateValidator_fixed (updateValidator s vIn) vIn
          (bondVal s.height (normVal s vIn)) hdist1 hold1
          hwowner
          (by rw [bondVal_pubKey, normVal_pubKey])
          (by rw [bondVal_tokens, normVal_tokens])
          (fun _ => hbel1)
          (fun hc => by rw [bondVal_status] at hc; cases hc)
      | some d =>
        have hc : cliffOf (bondedOthersOf s vIn) = some d := by
          by_cases hfull : s.maxValidators ≤ (bondedOthersOf s vIn).length
          · rw [if_pos hfull] at hd
            exact hd
          · rw [if_neg hfull] at hd
            cases hd
        obtain ⟨hdmem, hdne, hdb⟩ := displaced_facts s vIn d hc
        have hdpos : 0 < d.tokens := hbp d hdmem hdb
        have hdmem2 : d ∈ othersOf s vIn.owner := by
          rw [othersOf, List.mem_filter]
          exact ⟨hdmem, by simp [hdne]⟩
        have hupd2 : updateValidator s vIn = bondDisplace s vIn d := by
          rw [hupd, bondCase, hd]
        have hold1 : oldOf (updateValidator s vIn) vIn
            = some (bondVal s.height (normVal s vIn)) := by
          rw [hupd2]
          show (adjust (bondStore s vIn) d.owner unbondVal).find?
            (fun u => u.owner == vIn.owner) = _
          rw [find?_adjust_other _ d.owner vIn.owner unbondVal
            (fun u hu => by rw [unbondVal_owner]; exact hu) (Ne.symm hdne)]
          rw [bondStore]
          exact storeSet_find_self_any _ _ _ hwowner
        have hoth1 : othersOf (updateValidator s vIn) vIn.owner
            = adjust (othersOf s vIn.owner) d.owner unbondVal := by
          rw [hupd2]
          show (adjust (bondStore s vIn) d.owner unbondVal).filter
            (fun u => u.owner != vIn.owner) = _
          rw [filter_adjust_comm _ d.owner _
            (fun u hu => by rw [unbondVal_owner]; exact hu) vIn.owner]
          rw [show (bondStore s vIn).filter (fun u => u.owner != vIn.owner)
              = othersOf s vIn.owner from storeSet_filter_ne _ _ _ hwowner]
        have hprof : (powerIndexOf (adjust (othersOf s vIn.owner) d.owner
              unbondVal)).map (fun u => u.tokens)
            = (powerIndexOf (othersOf s vIn.owner)).map (fun u => u.tokens) := by
          apply tokens_powerIndexOf_adjust_mem
          intro u hu huo
          have hud : u = d := eq_of_mem_owner _ hdoth u d hu hdmem2 huo
          subst hud
          refine ⟨unbondVal_tokens _, ?_⟩
          simp [inPowerIndex, unbondVal_status, unbondVal_tokens, hdb, ne_of_gt hdpos]
        have hbel1 : belongs (updateValidator s vIn) vIn = true := by
          rw [belongs, keepOf_present _ vIn _ hold1, bondVal_status, hoth1, hmax1,
            belongsDecision_congr s.maxValidators _ _ vIn.tokens hprof, hbd]
          rfl
        exact updateValidator_fixed (updateValidator s vIn) vIn
          (bondVal s.height (normVal s vIn)) hdist1 hold1
          hwowner
          (by rw [bondVal_pubKey, normVal_pubKey])
          (by rw [bondVal_tokens, normVal_tokens])
          (fun _ => hbel1)
          (fun hc => by rw [bondVal_status] at hc; cases hc)
    · -- keep transition
      have hbelF : belongs s vIn = false := by simpa using hbel
      have hbdF : belongsDecision s.maxValidators
          (powerIndexOf (othersOf s vIn.owner)) vIn.tokens = false := by
        have h := hbelF
        rw [belongs] at h
        rcases Bool.and_eq_false_iff.mp h with h1 | h2
        · exfalso
          simp [hkeepnr] at h1
        · exact h2
      have hkb : (keepOf s vIn == BondStatus.revoked) = false := by
        simp [hkeepnr]
      have hupd : updateValidator s vIn = keepCase s vIn := by
        rw [updateValidator, if_neg hpb, if_neg (by simp [hbelF])]
      have hwrec0 : setStatus (if keepOf s vIn == .revoked then .revoked else .unbonded)
          (normVal s vIn) = setStatus .unbonded (normVal s vIn) := by
        rw [hkb]
        rfl
      have hwowner : (setStatus .unbonded (normVal s vIn)).owner = vIn.owner := by
        rw [setStatus_owner, normVal_owner]
      have hold1 : oldOf (updateValidator s vIn) vIn
          = some (setStatus .unbonded (normVal s vIn)) := by
        rw [hupd]
        show (storeSet s.validators
          (setStatus (if keepOf s vIn == .revoked then .revoked else .unbonded)
            (normVal s vIn))).find? (fun u => u.owner == vIn.owner) = _
        rw [hwrec0]
        exact storeSet_find_self_any _ _ _ hwowner
      have hoth1 : othersOf (updateValidator s vIn) vIn.owner = othersOf s vIn.owner := by
        rw [hupd]
        show (storeSet s.validators
          (setStatus (if keepOf s vIn == .revoked then .revoked else .unbonded)
            (normVal s vIn))).filter (fun u => u.owner != vIn.owner)
          = s.validators.filter (fun u => u.owner != vIn.owner)
        rw [hwrec0]
        exact storeSet_filter_ne _ _ _ hwowner
      have hbel1 : belongs (updateValidator s vIn) vIn = false := by
        rw [belongs, keepOf_present _ vIn _ hold1, setStatus_status, hoth1, hmax1, hbdF]
        rfl
      exact updateValidator_fixed (updateValidator s vIn) vIn
        (setStatus .unbonded (normVal s vIn)) hdist1 hold1
        hwowner
        (by rw [setStatus_pubKey, normVal_pubKey])
        (by rw [setStatus_tokens, normVal_tokens])
        (fun hc => by rw [setStatus_status] at hc; cases hc)
        (fun _ => hbel1)

/-- C1: when the bonded set is full and a stored unbonded validator is
updated to a power strictly above the rank-`MaxValidators` (cliff) entry of
the index over the other validators, the single `UpdateValidator` call takes
the bond-displace transition: the incoming validator ends bonded with its
new power, the displaced cliff validator ends unbonded, and the
pending-update list after that one call contains both the incoming
validator's `(pubkey, new power)` entry and the displaced validator's
`(pubkey, 0)` entry. -/
theorem C1_cliff_swap (s : State) (vIn v c : Validator)
    (hInv : StoreInv s)
    (hold : oldOf s vIn = some v) (hvu : v.status = .unbonded)
    (hm : 0 < s.maxValidators)
    (hfull : s.maxValidators ≤ (bondedOthersOf s vIn).length)
    (hcliff : cliffOf (bondedOthersOf s vIn) = some c)
    (hidx : (powerIndexOf (othersOf s vIn.owner)).get? (s.maxValidators - 1) = some c)
    (hlt : c.tokens < vIn.tokens) :
    updateValidator s vIn = bondDisplace s vIn c ∧
    getValidator (updateValidator s vIn) vIn.owner
        = some (bondVal s.height (normVal s vIn)) ∧
    getValidator (updateValidator s vIn) c.owner = some (unbondVal c) ∧
    (vIn.owner, vIn.pubKey, ⌊vIn.tokens⌋) ∈ (updateValidator s vIn).pendingUpdates ∧
    (c.owner, c.pubKey, (0 : ℤ)) ∈ (updateValidator s vIn).pendingUpdates := by
  obtain ⟨hdist, hnr, hnn, hbp, hcount, hpend⟩ := hInv
  obtain ⟨hcmem, hcne, hcb⟩ := displaced_facts s vIn c hcliff
  have hold' : s.validators.find? (fun u => u.owner == vIn.owner) = some v := hold
  have hpb : priorBonded s vIn = false := by
    simp [priorBonded, hold, hvu]
  have htpos : 0 < vIn.tokens := lt_of_le_of_lt (hnn c hcmem) hlt
  have hkeep : keepOf s vIn = .unbonded := by
    rw [keepOf_present s vIn v hold, hvu]
  have hlenidx : s.maxValidators ≤ (powerIndexOf (othersOf s vIn.owner)).length := by
    obtain ⟨hl, _⟩ := List.get?_eq_some.mp hidx
    omega
  have hbel : belongs s vIn = true := by
    rw [belongs, hkeep, belongsDecision, if_neg (by omega), hidx]
    simp [htpos, hm, hlt]
  have hcase : updateValidator s vIn = bondDisplace s vIn c := by
    rw [updateValidator, if_neg (by simp [hpb]), if_pos hbel, bondCase, if_pos hfull, hcliff]
  have hBowner : (bondVal s.height (normVal s vIn)).owner = vIn.owner := by
    rw [bondVal_owner, normVal_owner]
  have hfindB : (bondStore s vIn).find? (fun w => w.owner == vIn.owner)
      = some (bondVal s.height (normVal s vIn)) := by
    have h0 : s.validators.find?
        (fun w => w.owner == (bondVal s.height (normVal s vIn)).owner) = some v := by
      simp only [hBowner]
      exact hold'
    have h1 := find?_storeSet_self s.validators (bondVal s.height (normVal s vIn)) v h0
    rw [bondStore]
    simpa only [hBowner] using h1
  have hfind_newB : (adjust (bondStore s vIn) c.owner unbondVal).find?
      (fun u => u.owner == vIn.owner) = some (bondVal s.height (normVal s vIn)) := by
    rw [find?_adjust_other _ c.owner vIn.owner unbondVal
      (fun u hu => by rw [unbondVal_owner]; exact hu) (Ne.symm hcne)]
    exact hfindB
  have hfindc : (bondStore s vIn).find? (fun w => w.owner == c.owner) = some c := by
    rw [bondStore, find?_storeSet_other s.validators _ c.owner (by rw [hBowner]; exact hcne)]
    exact find?_of_mem_distinct s.validators c hdist hcmem
  have hfind_newC : (adjust (bondStore s vIn) c.owner unbondVal).find?
      (fun u => u.owner == c.owner) = some (unbondVal c) :=
    find?_adjust_self _ c.owner unbondVal c
      (fun w hw => by rw [unbondVal_owner]; exact hw) hfindc
  have hg1 : getValidator (updateValidator s vIn) vIn.owner
      = some (bondVal s.height (normVal s vIn)) := by
    rw [hcase]
    show (adjust (bondStore s vIn) c.owner unbondVal).find? (fun u => u.owner == vIn.owner) = _
    exact hfind_newB
  have hg2 : getValidator (updateValidator s vIn) c.owner = some (unbondVal c) := by
    rw [hcase]
    show (adjust (bondStore s vIn) c.owner unbondVal).find? (fun u => u.owner == c.owner) = _
    exact hfind_newC
  have hvAold : visibleAt s.validators vIn.owner = none := by
    simp only [visibleAt, hold']
    rw [visible, if_neg (by rw [hvu]; simp)]
  have hvAnew : visibleAt (adjust (bondStore s vIn) c.owner unbondVal) vIn.owner
      = some (vIn.pubKey, ⌊vIn.tokens⌋) := by
    simp only [visibleAt, hfind_newB]
    rw [visible, if_pos (bondVal_status s.height (normVal s vIn)),
      bondVal_pubKey, normVal_pubKey, bondVal_tokens, normVal_tokens]
  have hvCold : visibleAt s.validators c.owner = some (c.pubKey, ⌊c.tokens⌋) := by
    simp only [visibleAt, find?_of_mem_distinct s.validators c hdist hcmem]
    rw [visible, if_pos hcb]
  have hvCnew : visibleAt (adjust (bondStore s vIn) c.owner unbondVal) c.owner = none := by
    simp only [visibleAt, hfind_newC]
    rw [visible, if_neg (by rw [unbondVal_status]; simp)]
  have hinner : emitFor s.validators (adjust (bondStore s vIn) c.owner unbondVal)
        vIn.owner s.pendingUpdates
      = setPending s.pendingUpdates vIn.owner vIn.pubKey ⌊vIn.tokens⌋ := by
    simp only [emitFor, hvAnew, hvAold]
    rw [if_neg (by simp)]
  have houter : emitFor s.validators (adjust (bondStore s vIn) c.owner unbondVal)
        c.owner (setPending s.pendingUpdates vIn.owner vIn.pubKey ⌊vIn.tokens⌋)
      = setPending (setPending s.pendingUpdates vIn.owner vIn.pubKey ⌊vIn.tokens⌋)
          c.owner c.pubKey 0 := by
    simp only [emitFor, hvCnew, hvCold]
    rw [if_neg (by simp)]
  have hpu : (updateValidator s vIn).pendingUpdates
      = setPending (setPending s.pendingUpdates vIn.owner vIn.pubKey ⌊vIn.tokens⌋)
          c.owner c.pubKey 0 := by
    rw [hcase]
    show emitFor s.validators (adjust (bondStore s vIn) c.owner unbondVal) c.owner
        (emitFor s.validators (adjust (bondStore s vIn) c.owner unbondVal) vIn.owner
          s.pendingUpdates) = _
    rw [hinner, houter]
  refine ⟨hcase, hg1, hg2, ?_, ?_⟩
  · rw [hpu, setPending, setPending]
    exact List.mem_cons_of_mem _
      (List.mem_filter.mpr ⟨List.mem_cons_self _ _, by simp [Ne.symm hcne]⟩)
  · rw [hpu, setPending]
    exact List.mem_cons_self _ _

/-- Witness for C1: in the cliff scenario (`MaxValidators = 2`, bonded
powers 10 and 20, a third validator stored unbonded with power 5), raising
the third validator to 15 yields pending updates for both its promotion and
the displaced cliff validator's eviction. -/
theorem C1_cliff_swap_witness :
    ((freshVal 2 102 15).owner, (freshVal 2 102 15).pubKey, ⌊(freshVal 2 102 15).tokens⌋)
        ∈ (updateValidator cliffScenario (freshVal 2 102 15)).pendingUpdates ∧
    (0, 100, (0 : ℤ)) ∈ (updateValidator cliffScenario (freshVal 2 102 15)).pendingUpdates := by
  have h := C1_cliff_swap cliffScenario (freshVal 2 102 15)
      { owner := 2, pubKey := 102, status := .unbonded, tokens := 5,
        bondHeight := 0, counter := 2 }
      { owner := 0, pubKey := 100, status := .bonded, tokens := 10,
        bondHeight := 0, counter := 0 }
      (by decide) (by decide) rfl (by decide) (by decide) (by decide) (by decide) (by decide)
  exact ⟨h.2.2.2.1, h.2.2.2.2⟩

/-- C3: ties in power are broken by bond age and transaction order.  An
incoming non-bonded validator whose power only ties the rank-`MaxValidators`
entry of the index over the other validators does not belong: the call takes
the keep transition and every other validator's record — in particular the
current occupant's — is unchanged.  With strictly greater power it belongs:
the call takes the bond transition and the incoming validator ends bonded. -/
theorem C3_tie_behavior :
    (∀ (s : State) (vIn c : Validator),
      priorBonded s vIn = false →
      (powerIndexOf (othersOf s vIn.owner)).get? (s.maxValidators - 1) = some c →
      vIn.tokens ≤ c.tokens →
      belongs s vIn = false ∧
      updateValidator s vIn = keepCase s vIn ∧
      othersOf (updateValidator s vIn) vIn.owner = othersOf s vIn.owner) ∧
    (∀ (s : State) (vIn c : Validator),
      priorBonded s vIn = false →
      keepOf s vIn ≠ .revoked →
      0 < s.maxValidators →
      (powerIndexOf (othersOf s vIn.owner)).get? (s.maxValidators - 1) = some c →
      0 ≤ c.tokens →
      c.tokens < vIn.tokens →
      belongs s vIn = true ∧
      updateValidator s vIn = bondCase s vIn ∧
      getValidator (updateValidator s vIn) vIn.owner
        = some (bondVal s.height (normVal s vIn))) := by
  constructor
  · intro s vIn c hpb hidx hle
    have hnotlt : ¬ (c.tokens < vIn.tokens) := not_lt.mpr hle
    have hbel : belongs s vIn = false := by
      by_cases hm0 : 0 < s.maxValidators
      · have hlen : ¬ (powerIndexOf (othersOf s vIn.owner)).length < s.maxValidators := by
          obtain ⟨hl, _⟩ := List.get?_eq_some.mp hidx
          omega
        rw [belongs, belongsDecision, if_neg hlen, hidx]
        simp [hnotlt]
      · have hm0' : s.maxValidators = 0 := by omega
        rw [belongs, belongsDecision]
        simp [hm0']
    have hupd : updateValidator s vIn = keepCase s vIn := by
      rw [updateValidator, if_neg (by simp [hpb]), if_neg (by simp [hbel])]
    refine ⟨hbel, hupd, ?_⟩
    rw [hupd]
    show (storeSet s.validators
        (setStatus (if keepOf s vIn == .revoked then .revoked else .unbonded)
          (normVal s vIn))).filter (fun u => u.owner != vIn.owner)
      = s.validators.filter (fun u => u.owner != vIn.owner)
    have hown : (setStatus (if keepOf s vIn == .revoked then .revoked else .unbonded)
        (normVal s vIn)).owner = vIn.owner := by
      rw [setStatus_owner, normVal_owner]
    have h := filter_ne_storeSet s.validators
      (setStatus (if keepOf s vIn == .revoked then .revoked else .unbonded) (normVal s vIn))
    rw [hown] at h
    exact h
  · intro s vIn c hpb hkeep hm hidx hc0 hlt
    have htpos : 0 < vIn.tokens := lt_of_le_of_lt hc0 hlt
    have hlen : ¬ (powerIndexOf (othersOf s vIn.owner)).length < s.maxValidators := by
      obtain ⟨hl, _⟩ := List.get?_eq_some.mp hidx
      omega
    have hbel : belongs s vIn = true := by
      rw [belongs, belongsDecision, if_neg hlen, hidx]
      simp [htpos, hm, hlt, hkeep]
    have hupd : updateValidator s vIn = bondCase s vIn := by
      rw [updateValidator, if_neg (by simp [hpb]), if_pos hbel]
    refine ⟨hbel, hupd, ?_⟩
    rw [hupd]
    have hBowner : (bondVal s.height (normVal s vIn)).owner = vIn.owner := by
      rw [bondVal_owner, normVal_owner]
    have hfindB : (bondStore s vIn).find? (fun w => w.owner == vIn.owner)
        = some (bondVal s.height (normVal s vIn)) := by
      cases hod : oldOf s vIn with
      | some w =>
        have h0 : s.validators.find?
            (fun u => u.owner == (bondVal s.height (normVal s vIn)).owner) = some w := by
          simp only [hBowner]
          exact hod
        have h1 := find?_storeSet_self s.validators _ w h0
        rw [bondStore]
        simpa only [hBowner] using h1
      | none =>
        have h0 : s.validators.find?
            (fun u => u.owner == (bondVal s.height (normVal s vIn)).owner) = none := by
          simp only [hBowner]
          exact hod
        have h1 := find?_storeSet_absent s.validators _ h0
        rw [bondStore]
        simpa only [hBowner] using h1
    by_cases hfull : s.maxValidators ≤ (bondedOthersOf s vIn).length
    · cases hd : cliffOf (bondedOthersOf s vIn) with
      | none =>
        rw [bondCase, if_pos hfull, hd]
        show (bondStore s vIn).find? (fun u => u.owner == vIn.owner) = _
        exact hfindB
      | some d =>
        rw [bondCase, if_pos hfull, hd]
        obtain ⟨hdmem, hdne, hdb⟩ := displaced_facts s vIn d hd
        show (adjust (bondStore s vIn) d.owner unbondVal).find?
          (fun u => u.owner == vIn.owner) = _
        rw [find?_adjust_other _ d.owner vIn.owner unbondVal
          (fun u hu => by rw [unbondVal_owner]; exact hu) (Ne.symm hdne)]
        exact hfindB
    · rw [bondCase, if_neg hfull]
      show (bondStore s vIn).find? (fun u => u.owner == vIn.owner) = _
      exact hfindB

/-- Witness for C3: in the tie scenario, raising the displaced validator
back to a power equal to the occupant's does not displace it (the occupant's
record is unchanged and the call keeps the incomer out), while the earlier
strict rise did bond the incomer. -/
theorem C3_tie_behavior_witness :
    (belongs tieScenario2
        { owner := 1, pubKey := 101, status := .unbonded, tokens := 150,
          bondHeight := 0, counter := 1 } = false ∧
      othersOf (updateValidator tieScenario2
          { owner := 1, pubKey := 101, status := .unbonded, tokens := 150,
            bondHeight := 0, counter := 1 }) 1 = othersOf tieScenario2 1) ∧
    belongs tieScenario
        { owner := 2, pubKey := 102, status := .unbonded, tokens := 150,
          bondHeight := 0, counter := 2 } = true := by
  have h1 := C3_tie_behavior.1 tieScenario2
      { owner := 1, pubKey := 101, status := .unbonded, tokens := 150,
        bondHeight := 0, counter := 1 }
      { owner := 2, pubKey := 102, status := .bonded, tokens := 150,
        bondHeight := 0, counter := 2 }
      (by decide) (by decide) (by decide)
  have h2 := C3_tie_behavior.2 tieScenario
      { owner := 2, pubKey := 102, status := .unbonded, tokens := 150,
        bondHeight := 0, counter := 2 }
      { owner := 1, pubKey := 101, status := .bonded, tokens := 100,
        bondHeight := 0, counter := 1 }
      (by decide) (by decide) (by decide) (by decide) (by decide) (by decide)
  exact ⟨⟨h1.1, h1.2.2⟩, h2.1⟩

/-- C7: `UpdateValidator` is idempotent over well-formed stores: calling it
twice with the same validator yields the same store state as calling it
once, and — starting from a pending-update map with no entry for the
validator's owner, as after a block-end clear — one call leaves at most one
pending-update entry keyed by that owner, and zero entries when the
validator's consensus-visible `(pubkey, power)` is unchanged by the call. -/
theorem C7_idempotent (s : State) (vIn : Validator)
    (hInv : StoreInv s) (hst : vIn.status ≠ .revoked) (ht0 : 0 ≤ vIn.tokens)
    (hclean : countKey s.pendingUpdates vIn.owner = 0) :
    updateValidator (updateValidator s vIn) vIn = updateValidator s vIn ∧
    countKey (updateValidator s vIn).pendingUpdates vIn.owner ≤ 1 ∧
    (visibleAt (updateValidator s vIn).validators vIn.owner
        = visibleAt s.validators vIn.owner →
      countKey (updateValidator s vIn).pendingUpdates vIn.owner = 0) := by
  have hinnerle : countKey (emitFor s.validators (updateValidator s vIn).validators
      vIn.owner s.pendingUpdates) vIn.owner ≤ 1 := by
    have h := countKey_emitFor_le s.validators (updateValidator s vIn).validators
      vIn.owner s.pendingUpdates
    rw [hclean] at h
    simpa using h
  refine ⟨updateValidator_idem_store s vIn hInv hst ht0, ?_, ?_⟩
  · rcases updateValidator_pending_shape s vIn with h | ⟨o2, ho2, h⟩
    · rw [h]
      exact hinnerle
    · rw [h, countKey_emitFor_other _ _ o2 vIn.owner _ (Ne.symm ho2)]
      exact hinnerle
  · intro hvis
    rcases updateValidator_pending_shape s vIn with h | ⟨o2, ho2, h⟩
    · rw [h, emitFor_visible_eq _ _ _ _ hvis]
      exact hclean
    · rw [h, countKey_emitFor_other _ _ o2 vIn.owner _ (Ne.symm ho2),
        emitFor_visible_eq _ _ _ _ hvis]
      exact hclean

/-- Witness for C7: in the cliff scenario, updating a fresh validator with
power 50 twice yields the same state as updating it once, and leaves at
most one pending-update entry under its owner. -/
theorem C7_idempotent_witness :
    updateValidator (updateValidator cliffScenario (freshVal 3 103 50)) (freshVal 3 103 50)
      = updateValidator cliffScenario (freshVal 3 103 50) ∧
    countKey (updateValidator cliffScenario (freshVal 3 103 50)).pendingUpdates 3 ≤ 1 := by
  have h := C7_idempotent cliffScenario (freshVal 3 103 50)
    (by decide) (by decide) (by decide) (by decide)
  exact ⟨h.1, h.2.1⟩

/-- C2 counterexample: in the cited scenario (`MaxValidators = 5`, powers
`[0, 100, 1, 400, 200]` inserted in order) `GetValidatorsByPower` does not
return five validators with powers `[400, 200, 100, 1, 0]`: the zero-power
validator has no entry in the by-power index, so only four are returned. -/
theorem C2_sorting_counterexample :
    (getValidatorsByPower sortScenario).map Validator.tokens ≠ [400, 200, 100, 1, 0] := by
  decide

/-- C2 (amended): `GetValidatorsByPower` returns the indexed validators —
the power index holds exactly the stored validators with an index entry —
in the sort-key total order (power descending, then bond height, counter
and owner ascending); in the cited scenario it returns the four validators
with positive power as `[400, 200, 100, 1]`, the zero-power validator being
absent from the index. -/
theorem C2_sort_order :
    (∀ s : State, List.Sorted valRel (powerIndex s) ∧
        List.Sorted valRel (getValidatorsByPower s) ∧
        List.Perm (powerIndex s) (s.validators.filter inPowerIndex)) ∧
    (getValidatorsByPower sortScenario).map Validator.tokens = [400, 200, 100, 1] := by
  constructor
  · intro s
    refine ⟨List.sorted_insertionSort valRel _, ?_, List.perm_insertionSort valRel _⟩
    exact List.Pairwise.sublist (List.take_sublist _ _) (List.sorted_insertionSort valRel _)
  · decide

/-- Witness for C9: in the concrete environment whose broadcast layer
rejects the second transaction, the handler returns 500 and the first
transaction remains broadcast. -/
theorem C9_partial_broadcast_witness :
    (editDelegationsHandler envMidFail reqTwoDelegations).status = 500 ∧
    (editDelegationsHandler envMidFail reqTwoDelegations).broadcasts = [[0]] := by
  have h := C9_partial_broadcast envMidFail reqTwoDelegations 1
      [SdkMsg.delegate ⟨1, 2, 5⟩, SdkMsg.delegate ⟨1, 3, 7⟩] [[0], [1]] rfl rfl rfl
  refine h.2.2.2 1 "broadcast failed" (by decide) ?_ rfl
  intro j hj
  have hj0 : j = 0 := by omega
  subst hj0
  exact ⟨0, rfl⟩

/-- Witness for C10: in the concrete environment authenticating address 1,
a request whose delegation carries delegator address 2 is rejected with 401
and nothing is broadcast. -/
theorem C10_own_address_check_witness :
    editDelegationsHandler envAccept reqForeignAddr
      = { status := 401, body := "Must use own delegator address", broadcasts := [] } :=
  (C10_own_address_check envAccept reqForeignAddr 1 rfl).1
    ⟨SdkMsg.delegate ⟨2, 3, 5⟩, by decide, by decide⟩

end Stake
